import Mathlib

/-!
Verification development for the query-orchestration engine of the
Multi-Agent-Orchestrator repository.

Shallow embedding conventions:
* Python dict/set state is modelled with insertion-ordered association
  lists (dicts) and Finsets (sets whose iteration order is irrelevant
  to the properties proved, because the code only reads them through
  membership and the batches are compared as sets of names).
* Wall-clock time (datetime.utcnow) is passed in explicitly as a Nat
  parameter named now; durations are seconds as Nats.
* Machine floats that are merely stored and never computed with
  (confidence scores) are modelled as rationals.
* A Python function that may raise is modelled with Except.
-/

namespace Orchestrator

/-! ## apps/orchestrator/state.py : data model -/

/-- Mirrors the AgentRequirement dataclass of apps/orchestrator/state.py. -/
structure AgentRequirement where
  agent_name : String
  reason : String := ""
  priority : Nat := 1
  depends_on : List String := []
  required_context : List String := []
deriving DecidableEq, Repr

/-- Mirrors the ExecutionPlan dataclass; batches are sets of agent names
because the source builds each batch by iterating a Python set, whose
internal order carries no information. -/
structure ExecutionPlan where
  batches : List (Finset String)
  dependencies : String → List String
  estimated_time_ms : Nat := 0

/-- The dict comprehension dependencies = (req.agent_name : req.depends_on)
built in create_parallel_execution_plan; on duplicate names the last
requirement wins, and .get with default empty list is used for lookup. -/
def planDeps (reqs : List AgentRequirement) : String → List String := fun a =>
  match reqs.reverse.find? (fun r => r.agent_name = a) with
  | some r => r.depends_on
  | none => []

/-- all_agents = set(req.agent_name for req in required_agents). -/
def allAgents (reqs : List AgentRequirement) : Finset String :=
  (reqs.map AgentRequirement.agent_name).toFinset

/-- One round of the while loop of create_parallel_execution_plan:
the agents of remaining whose listed dependencies are all scheduled. -/
def readySet (deps : String → List String) (remaining scheduled : Finset String) :
    Finset String :=
  remaining.filter (fun a => ∀ d ∈ deps a, d ∈ scheduled)

/-- The while loop of create_parallel_execution_plan (state.py lines
252-265), fuel-indexed.  Each iteration schedules the ready set, or, when
the ready set is empty (cycle or missing dependency), force-schedules all
remaining agents.  The top-level entry uses fuel = number of agents, which
is enough because every round schedules at least one agent; the lemma
planRounds_fuel_stable below shows larger fuel never changes the result,
so this is the exact semantics of the unbounded Python loop. -/
def planRounds (deps : String → List String) (all : Finset String) :
    Nat → Finset String → List (Finset String)
  | 0, _ => []
  | fuel + 1, scheduled =>
    if scheduled = all then []
    else
      let remaining := all \ scheduled
      let ready := readySet deps remaining scheduled
      let batch := if ready = ∅ then remaining else ready
      batch :: planRounds deps all fuel (scheduled ∪ batch)

/-- create_parallel_execution_plan of apps/orchestrator/state.py. -/
def create_parallel_execution_plan (reqs : List AgentRequirement) : ExecutionPlan :=
  let deps := planDeps reqs
  let all := allAgents reqs
  let batches := planRounds deps all all.card ∅
  { batches := batches
    dependencies := deps
    estimated_time_ms := batches.length * 500 }

/-! ## apps/orchestrator/cache.py : QueryDecomposer layering -/

/-- The while loop of QueryDecomposer._determine_order (cache.py lines
380-397), fuel-indexed like planRounds.  The loop keeps scheduling the
agents whose dependencies are executed; when a round yields an empty
batch it emits all remaining agents as a final batch and breaks. -/
def determineRounds (deps : String → List String) (agents : Finset String) :
    Nat → Finset String → List (Finset String)
  | 0, _ => []
  | fuel + 1, executed =>
    if executed.card < agents.card then
      let batch := agents.filter (fun a => a ∉ executed ∧ ∀ d ∈ deps a, d ∈ executed)
      if batch = ∅ then [agents.filter (fun a => a ∉ executed)]
      else batch :: determineRounds deps agents fuel (executed ∪ batch)
    else []

/-- QueryDecomposer._determine_order: agents = list(set(sq.agent for sq in
sub_queries)); the caller passes the agent names of the sub-queries and the
dependency dict (read through .get with default empty list). -/
def determine_order (subAgents : List String) (deps : String → List String) :
    List (Finset String) :=
  let agents := subAgents.toFinset
  determineRounds deps agents agents.card ∅

/-! ## Lemmas about the layering loops -/

lemma planRounds_at_all (deps : String → List String) (all : Finset String) :
    ∀ fuel, planRounds deps all fuel all = [] := by
  intro fuel
  cases fuel with
  | zero => rfl
  | succ n => simp [planRounds]

lemma sdiff_card_lt (all sched batch : Finset String) (hb : batch ⊆ all \ sched)
    (hne : batch ≠ ∅) : (all \ (sched ∪ batch)).card < (all \ sched).card := by
  apply Finset.card_lt_card
  rw [Finset.ssubset_iff_subset_ne]
  constructor
  · exact Finset.sdiff_subset_sdiff (le_refl all) Finset.subset_union_left
  · obtain ⟨x, hx⟩ := Finset.nonempty_iff_ne_empty.mpr hne
    intro hEq
    have hx1 : x ∈ all \ sched := hb hx
    have hx2 : x ∉ all \ (sched ∪ batch) := by
      simp only [Finset.mem_sdiff, Finset.mem_union]
      intro h
      exact h.2 (Or.inr hx)
    rw [hEq] at hx2
    exact hx2 hx1

lemma readySet_subset (deps : String → List String) (remaining sched : Finset String) :
    readySet deps remaining sched ⊆ remaining :=
  Finset.filter_subset _ _

/-- One unfolding step of the planner loop. -/
lemma planRounds_succ (deps : String → List String) (all : Finset String)
    (fuel : Nat) (sched : Finset String) :
    planRounds deps all (fuel + 1) sched =
      if sched = all then []
      else
        (if readySet deps (all \ sched) sched = ∅ then all \ sched
         else readySet deps (all \ sched) sched) ::
          planRounds deps all fuel
            (sched ∪ (if readySet deps (all \ sched) sched = ∅ then all \ sched
                      else readySet deps (all \ sched) sched)) := rfl

/-- One unfolding step of the decomposer loop. -/
lemma determineRounds_succ (deps : String → List String) (agents : Finset String)
    (fuel : Nat) (executed : Finset String) :
    determineRounds deps agents (fuel + 1) executed =
      if executed.card < agents.card then
        if agents.filter (fun a => a ∉ executed ∧ ∀ d ∈ deps a, d ∈ executed) = ∅ then
          [agents.filter (fun a => a ∉ executed)]
        else
          agents.filter (fun a => a ∉ executed ∧ ∀ d ∈ deps a, d ∈ executed) ::
            determineRounds deps agents fuel
              (executed ∪ agents.filter (fun a => a ∉ executed ∧ ∀ d ∈ deps a, d ∈ executed))
      else [] := rfl

/-- The planner loop and the decomposer loop take exactly the same steps
when started from an executed set below the agent set. -/
lemma planRounds_eq_determineRounds (deps : String → List String) (all : Finset String) :
    ∀ fuel (sched : Finset String), sched ⊆ all →
      planRounds deps all fuel sched = determineRounds deps all fuel sched := by
  intro fuel
  induction fuel with
  | zero => intro sched _; rfl
  | succ n ih =>
    intro sched hsub
    by_cases h : sched = all
    · subst h
      have hcard : ¬ sched.card < sched.card := lt_irrefl _
      simp [planRounds, determineRounds, hcard]
    · have hlt : sched.card < all.card :=
        Finset.card_lt_card (Finset.ssubset_iff_subset_ne.mpr ⟨hsub, h⟩)
      have hfilter : all.filter (fun a => a ∉ sched ∧ ∀ d ∈ deps a, d ∈ sched) =
          readySet deps (all \ sched) sched := by
        unfold readySet
        ext x
        simp only [Finset.mem_filter, Finset.mem_sdiff]
        tauto
      have hfilter2 : all.filter (fun a => a ∉ sched) = all \ sched := by
        ext x
        simp only [Finset.mem_filter, Finset.mem_sdiff]
      rw [planRounds_succ, determineRounds_succ, if_neg h, if_pos hlt, hfilter, hfilter2]
      by_cases hready : readySet deps (all \ sched) sched = ∅
      · rw [if_pos hready, if_pos hready, Finset.union_sdiff_of_subset hsub,
          planRounds_at_all]
      · have hsub2 : sched ∪ readySet deps (all \ sched) sched ⊆ all := by
          apply Finset.union_subset hsub
          exact (readySet_subset deps _ _).trans (Finset.sdiff_subset)
        rw [if_neg hready, if_neg hready, ih _ hsub2]

/-- Agreement of the loop under dependency functions that agree on the
agent set (the loop only ever reads dependencies of members). -/
lemma planRounds_congr (deps deps' : String → List String) (all : Finset String)
    (h : ∀ a ∈ all, deps a = deps' a) :
    ∀ fuel sched, planRounds deps all fuel sched = planRounds deps' all fuel sched := by
  intro fuel
  induction fuel with
  | zero => intro sched; rfl
  | succ n ih =>
    intro sched
    by_cases hall : sched = all
    · rw [planRounds_succ, planRounds_succ, if_pos hall, if_pos hall]
    · have hready : readySet deps (all \ sched) sched = readySet deps' (all \ sched) sched := by
        unfold readySet
        apply Finset.filter_congr
        intro x hx
        rw [h x (Finset.mem_sdiff.mp hx).1]
      rw [planRounds_succ, planRounds_succ, if_neg hall, if_neg hall, hready, ih]

/-- Extra fuel beyond the number of unscheduled agents never changes the
planner loop result: the fuel-indexed definition is the exact semantics of
the unbounded Python while loop. -/
lemma planRounds_fuel_stable (deps : String → List String) (all : Finset String) :
    ∀ fuel sched, sched ⊆ all → (all \ sched).card ≤ fuel →
      planRounds deps all (fuel + 1) sched = planRounds deps all fuel sched := by
  intro fuel
  induction fuel with
  | zero =>
    intro sched hsub hcard
    have hempty : all \ sched = ∅ := Finset.card_eq_zero.mp (Nat.le_zero.mp hcard)
    have hall : sched = all := by
      apply Finset.Subset.antisymm hsub
      intro x hx
      by_contra hxs
      have hmem : x ∈ all \ sched := Finset.mem_sdiff.mpr ⟨hx, hxs⟩
      rw [hempty] at hmem
      exact absurd hmem (Finset.not_mem_empty x)
    rw [planRounds_succ, if_pos hall]
    rfl
  | succ n ih =>
    intro sched hsub hcard
    by_cases hall : sched = all
    · rw [planRounds_succ deps all (n + 1) sched, if_pos hall]
      rw [planRounds_succ deps all n sched, if_pos hall]
    · have hne : all \ sched ≠ ∅ := by
        intro h
        apply hall
        apply Finset.Subset.antisymm hsub
        intro x hx
        by_contra hxs
        have hmem : x ∈ all \ sched := Finset.mem_sdiff.mpr ⟨hx, hxs⟩
        rw [h] at hmem
        exact absurd hmem (Finset.not_mem_empty x)
      rw [planRounds_succ deps all (n + 1) sched, if_neg hall]
      rw [planRounds_succ deps all n sched, if_neg hall]
      by_cases hr : readySet deps (all \ sched) sched = ∅
      · rw [if_pos hr]
        congr 1
        have hdec := sdiff_card_lt all sched (all \ sched) (le_refl _) hne
        exact ih (sched ∪ (all \ sched)) (Finset.union_subset hsub Finset.sdiff_subset)
          (by omega)
      · rw [if_neg hr]
        congr 1
        have hbsub : readySet deps (all \ sched) sched ⊆ all \ sched :=
          readySet_subset deps _ _
        have hdec := sdiff_card_lt all sched _ hbsub hr
        exact ih (sched ∪ readySet deps (all \ sched) sched)
          (Finset.union_subset hsub (hbsub.trans Finset.sdiff_subset)) (by omega)

/-! ## Structural invariants of the emitted batches -/

/-- Batches are pairwise disjoint and disjoint from the already scheduled
set: each batch only draws from the still unscheduled agents. -/
def batchesDisjointFrom : Finset String → List (Finset String) → Prop
  | _, [] => True
  | done, b :: rest => Disjoint done b ∧ batchesDisjointFrom (done ∪ b) rest

/-- Every dependency of a member of a batch was scheduled strictly before
that batch. -/
def depsRespected (deps : String → List String) :
    Finset String → List (Finset String) → Prop
  | _, [] => True
  | done, b :: rest =>
    (∀ a ∈ b, ∀ d ∈ deps a, d ∈ done) ∧ depsRespected deps (done ∪ b) rest

lemma planRounds_disjoint (deps : String → List String) (all : Finset String) :
    ∀ fuel sched, batchesDisjointFrom sched (planRounds deps all fuel sched) := by
  intro fuel
  induction fuel with
  | zero => intro sched; trivial
  | succ n ih =>
    intro sched
    rw [planRounds_succ]
    by_cases hall : sched = all
    · rw [if_pos hall]; trivial
    · rw [if_neg hall]
      refine ⟨?_, ih _⟩
      have hsub : (if readySet deps (all \ sched) sched = ∅ then all \ sched
          else readySet deps (all \ sched) sched) ⊆ all \ sched := by
        by_cases hr : readySet deps (all \ sched) sched = ∅
        · rw [if_pos hr]
        · rw [if_neg hr]; exact readySet_subset deps _ _
      exact Finset.disjoint_sdiff.mono_right hsub

lemma planRounds_nonempty_batches (deps : String → List String) (all : Finset String) :
    ∀ fuel sched, sched ⊆ all →
      ∀ b ∈ planRounds deps all fuel sched, b ≠ ∅ := by
  intro fuel
  induction fuel with
  | zero => intro sched _ b hb; simp [planRounds] at hb
  | succ n ih =>
    intro sched hsub b hb
    rw [planRounds_succ] at hb
    by_cases hall : sched = all
    · rw [if_pos hall] at hb; simp at hb
    · rw [if_neg hall] at hb
      have hne : all \ sched ≠ ∅ := by
        intro h
        apply hall
        apply Finset.Subset.antisymm hsub
        intro x hx
        by_contra hxs
        have hmem : x ∈ all \ sched := Finset.mem_sdiff.mpr ⟨hx, hxs⟩
        rw [h] at hmem
        exact absurd hmem (Finset.not_mem_empty x)
      rcases List.mem_cons.mp hb with hhead | htail
      · subst hhead
        by_cases hr : readySet deps (all \ sched) sched = ∅
        · rw [if_pos hr]; exact hne
        · rw [if_neg hr]; exact hr
      · have hsub2 : sched ∪ (if readySet deps (all \ sched) sched = ∅ then all \ sched
            else readySet deps (all \ sched) sched) ⊆ all := by
          apply Finset.union_subset hsub
          by_cases hr : readySet deps (all \ sched) sched = ∅
          · rw [if_pos hr]; exact Finset.sdiff_subset
          · rw [if_neg hr]; exact (readySet_subset deps _ _).trans Finset.sdiff_subset
        exact ih _ hsub2 b htail

lemma planRounds_complete (deps : String → List String) (all : Finset String) :
    ∀ fuel sched, sched ⊆ all → (all \ sched).card ≤ fuel →
      ∀ a ∈ all, a ∈ sched ∨ ∃ b ∈ planRounds deps all fuel sched, a ∈ b := by
  intro fuel
  induction fuel with
  | zero =>
    intro sched hsub hcard a ha
    left
    have hempty : all \ sched = ∅ := Finset.card_eq_zero.mp (Nat.le_zero.mp hcard)
    by_contra hxs
    have hmem : a ∈ all \ sched := Finset.mem_sdiff.mpr ⟨ha, hxs⟩
    rw [hempty] at hmem
    exact absurd hmem (Finset.not_mem_empty a)
  | succ n ih =>
    intro sched hsub hcard a ha
    by_cases hall : sched = all
    · left; rw [hall]; exact ha
    · rw [planRounds_succ, if_neg hall]
      have hne : all \ sched ≠ ∅ := by
        intro h
        apply hall
        apply Finset.Subset.antisymm hsub
        intro x hx
        by_contra hxs
        have hmem : x ∈ all \ sched := Finset.mem_sdiff.mpr ⟨hx, hxs⟩
        rw [h] at hmem
        exact absurd hmem (Finset.not_mem_empty x)
      set batch := (if readySet deps (all \ sched) sched = ∅ then all \ sched
        else readySet deps (all \ sched) sched) with hbatch
      have hbsub : batch ⊆ all \ sched := by
        rw [hbatch]
        by_cases hr : readySet deps (all \ sched) sched = ∅
        · rw [if_pos hr]
        · rw [if_neg hr]; exact readySet_subset deps _ _
      have hbne : batch ≠ ∅ := by
        rw [hbatch]
        by_cases hr : readySet deps (all \ sched) sched = ∅
        · rw [if_pos hr]; exact hne
        · rw [if_neg hr]; exact hr
      have hsub2 : sched ∪ batch ⊆ all :=
        Finset.union_subset hsub (hbsub.trans Finset.sdiff_subset)
      have hdec := sdiff_card_lt all sched batch hbsub hbne
      rcases ih (sched ∪ batch) hsub2 (by omega) a ha with hdone | ⟨b, hb, hab⟩
      · rcases Finset.mem_union.mp hdone with hs | hbm
        · exact Or.inl hs
        · exact Or.inr ⟨batch, List.mem_cons_self _ _, hbm⟩
      · exact Or.inr ⟨b, List.mem_cons_of_mem _ hb, hab⟩

lemma planRounds_length (deps : String → List String) (all : Finset String) :
    ∀ fuel sched, sched ⊆ all →
      (planRounds deps all fuel sched).length ≤ (all \ sched).card := by
  intro fuel
  induction fuel with
  | zero => intro sched _; simp [planRounds]
  | succ n ih =>
    intro sched hsub
    by_cases hall : sched = all
    · rw [planRounds_succ, if_pos hall]; simp
    · rw [planRounds_succ, if_neg hall]
      have hne : all \ sched ≠ ∅ := by
        intro h
        apply hall
        apply Finset.Subset.antisymm hsub
        intro x hx
        by_contra hxs
        have hmem : x ∈ all \ sched := Finset.mem_sdiff.mpr ⟨hx, hxs⟩
        rw [h] at hmem
        exact absurd hmem (Finset.not_mem_empty x)
      set batch := (if readySet deps (all \ sched) sched = ∅ then all \ sched
        else readySet deps (all \ sched) sched) with hbatch
      have hbsub : batch ⊆ all \ sched := by
        rw [hbatch]
        by_cases hr : readySet deps (all \ sched) sched = ∅
        · rw [if_pos hr]
        · rw [if_neg hr]; exact readySet_subset deps _ _
      have hbne : batch ≠ ∅ := by
        rw [hbatch]
        by_cases hr : readySet deps (all \ sched) sched = ∅
        · rw [if_pos hr]; exact hne
        · rw [if_neg hr]; exact hr
      have hsub2 : sched ∪ batch ⊆ all :=
        Finset.union_subset hsub (hbsub.trans Finset.sdiff_subset)
      have hdec := sdiff_card_lt all sched batch hbsub hbne
      have hrec := ih (sched ∪ batch) hsub2
      simp only [List.length_cons]
      omega

lemma mem_done_not_in_later (a : String) :
    ∀ (L : List (Finset String)) (done : Finset String),
      batchesDisjointFrom done L → a ∈ done → ∀ b ∈ L, a ∉ b := by
  intro L
  induction L with
  | nil => intro done _ _ b hb; simp at hb
  | cons c rest ih =>
    intro done hdisj ha b hb
    obtain ⟨hdc, hrest⟩ := hdisj
    rcases List.mem_cons.mp hb with hhead | htail
    · subst hhead
      exact Finset.disjoint_left.mp hdc ha
    · exact ih (done ∪ c) hrest (Finset.mem_union_left c ha) b htail

lemma countP_eq_zero_of_done (a : String) :
    ∀ (L : List (Finset String)) (done : Finset String),
      batchesDisjointFrom done L → a ∈ done →
      L.countP (fun b => decide (a ∈ b)) = 0 := by
  intro L done hdisj ha
  rw [List.countP_eq_zero]
  intro b hb
  simp only [decide_eq_true_eq]
  exact mem_done_not_in_later a L done hdisj ha b hb

lemma countP_eq_one_of_mem (a : String) :
    ∀ (L : List (Finset String)) (done : Finset String),
      batchesDisjointFrom done L → (∃ b ∈ L, a ∈ b) →
      L.countP (fun b => decide (a ∈ b)) = 1 := by
  intro L
  induction L with
  | nil => intro done _ h; simp at h
  | cons c rest ih =>
    intro done hdisj hmem
    obtain ⟨hdc, hrest⟩ := hdisj
    rw [List.countP_cons]
    by_cases hac : a ∈ c
    · have hz : rest.countP (fun b => decide (a ∈ b)) = 0 :=
        countP_eq_zero_of_done a rest (done ∪ c) hrest (Finset.mem_union_right done hac)
      simp [hz, hac]
    · obtain ⟨b, hb, hab⟩ := hmem
      rcases List.mem_cons.mp hb with hhead | htail
      · subst hhead; exact absurd hab hac
      · have := ih (done ∪ c) hrest ⟨b, htail, hab⟩
        simp [this, hac]

/-- Index of the first batch containing a given agent name. -/
def batchIndex (a : String) : List (Finset String) → Option Nat
  | [] => none
  | b :: rest => if a ∈ b then some 0 else (batchIndex a rest).map (· + 1)

lemma disjoint_done_of_get (a : String) :
    ∀ (L : List (Finset String)) (done : Finset String),
      batchesDisjointFrom done L →
      ∀ i b, L.get? i = some b → a ∈ b → a ∉ done := by
  intro L
  induction L with
  | nil => intro done _ i b hb; simp at hb
  | cons c rest ih =>
    intro done hdisj i b hb hab
    obtain ⟨hdc, hrest⟩ := hdisj
    cases i with
    | zero =>
      simp only [List.get?] at hb
      injection hb with hb
      subst hb
      exact fun ha => Finset.disjoint_left.mp hdc ha hab
    | succ j =>
      simp only [List.get?] at hb
      intro ha
      exact ih (done ∪ c) hrest j b hb hab (Finset.mem_union_left c ha)

lemma batchIndex_of_get (a : String) :
    ∀ (L : List (Finset String)) (done : Finset String),
      batchesDisjointFrom done L →
      ∀ i b, L.get? i = some b → a ∈ b → batchIndex a L = some i := by
  intro L
  induction L with
  | nil => intro done _ i b hb; simp at hb
  | cons c rest ih =>
    intro done hdisj i b hb hab
    obtain ⟨hdc, hrest⟩ := hdisj
    cases i with
    | zero =>
      simp only [List.get?] at hb
      injection hb with hb
      subst hb
      simp [batchIndex, hab]
    | succ j =>
      simp only [List.get?] at hb
      have hnotc : a ∉ c := by
        intro hac
        exact disjoint_done_of_get a rest (done ∪ c) hrest j b hb hab
          (Finset.mem_union_right done hac)
      have hr := ih (done ∪ c) hrest j b hb hab
      simp [batchIndex, hnotc, hr]

lemma depsRespected_earlier (deps : String → List String) :
    ∀ (L : List (Finset String)) (done : Finset String),
      depsRespected deps done L →
      ∀ i b, L.get? i = some b → ∀ a ∈ b, ∀ d ∈ deps a,
        d ∈ done ∨ ∃ j, j < i ∧ ∃ c, L.get? j = some c ∧ d ∈ c := by
  intro L
  induction L with
  | nil => intro done _ i b hb; simp at hb
  | cons c rest ih =>
    intro done hresp i b hb a hab d hd
    obtain ⟨hhead, hrest⟩ := hresp
    cases i with
    | zero =>
      simp only [List.get?] at hb
      injection hb with hb
      subst hb
      exact Or.inl (hhead a hab d hd)
    | succ j =>
      simp only [List.get?] at hb
      rcases ih (done ∪ c) hrest j b hb a hab d hd with hdone | ⟨k, hk, c', hc', hdc'⟩
      · rcases Finset.mem_union.mp hdone with h1 | h2
        · exact Or.inl h1
        · exact Or.inr ⟨0, Nat.succ_pos j, c, rfl, h2⟩
      · exact Or.inr ⟨k + 1, Nat.succ_lt_succ hk, c', hc', hdc'⟩

/-- When every agent has a strictly dependency-decreasing rank and every
dependency is itself an agent, each round's ready set is nonempty (no
forced batch ever happens): pick the unscheduled agent of minimal rank. -/
lemma readySet_nonempty_of_rank (deps : String → List String) (all sched : Finset String)
    (rank : String → Nat)
    (hclosed : ∀ a ∈ all, ∀ d ∈ deps a, d ∈ all)
    (hrank : ∀ a ∈ all, ∀ d ∈ deps a, rank d < rank a)
    (hsub : sched ⊆ all) (hne : sched ≠ all) :
    readySet deps (all \ sched) sched ≠ ∅ := by
  have hrem : (all \ sched).Nonempty := by
    rw [Finset.sdiff_nonempty]
    intro hsubset
    exact hne (Finset.Subset.antisymm hsub hsubset)
  obtain ⟨a, ha, hamin⟩ := Finset.exists_min_image (all \ sched) rank hrem
  have haall : a ∈ all := (Finset.mem_sdiff.mp ha).1
  apply Finset.nonempty_iff_ne_empty.mp
  refine ⟨a, ?_⟩
  unfold readySet
  rw [Finset.mem_filter]
  refine ⟨ha, ?_⟩
  intro d hd
  have hdall : d ∈ all := hclosed a haall d hd
  have hdlt : rank d < rank a := hrank a haall d hd
  by_contra hdns
  have hdrem : d ∈ all \ sched := Finset.mem_sdiff.mpr ⟨hdall, hdns⟩
  exact absurd (hamin d hdrem) (by omega)

lemma planRounds_depsRespected (deps : String → List String) (all : Finset String)
    (rank : String → Nat)
    (hclosed : ∀ a ∈ all, ∀ d ∈ deps a, d ∈ all)
    (hrank : ∀ a ∈ all, ∀ d ∈ deps a, rank d < rank a) :
    ∀ fuel sched, sched ⊆ all →
      depsRespected deps sched (planRounds deps all fuel sched) := by
  intro fuel
  induction fuel with
  | zero => intro sched _; trivial
  | succ n ih =>
    intro sched hsub
    rw [planRounds_succ]
    by_cases hall : sched = all
    · rw [if_pos hall]; trivial
    · rw [if_neg hall]
      have hr : readySet deps (all \ sched) sched ≠ ∅ :=
        readySet_nonempty_of_rank deps all sched rank hclosed hrank hsub hall
      rw [if_neg hr]
      constructor
      · intro a hamem d hd
        have := Finset.mem_filter.mp hamem
        exact this.2 d hd
      · exact ih _ (Finset.union_subset hsub
          ((readySet_subset deps _ _).trans Finset.sdiff_subset))

/-! ## Claim theorems for the planner and the decomposer layering -/

/-- C1: for every requirement set, given the same agent names and the same
dependency map, the Execution Planner's create_parallel_execution_plan and
the Query Decomposer's _determine_order produce identical layerings: the
same number of batches with the same set of agent names at every batch
position (batches are compared as sets, the only information the Python
set iteration order leaves). -/
theorem plan_and_decomposer_layering_identical
    (reqs : List AgentRequirement) (subAgents : List String)
    (deps : String → List String)
    (hA : subAgents.toFinset = allAgents reqs)
    (hD : ∀ a ∈ allAgents reqs, deps a = planDeps reqs a) :
    (create_parallel_execution_plan reqs).batches = determine_order subAgents deps := by
  show planRounds (planDeps reqs) (allAgents reqs) (allAgents reqs).card ∅ =
    determineRounds deps subAgents.toFinset subAgents.toFinset.card ∅
  rw [hA]
  rw [← planRounds_eq_determineRounds deps (allAgents reqs) _ ∅ (Finset.empty_subset _)]
  exact planRounds_congr (planDeps reqs) deps (allAgents reqs)
    (fun a ha => (hD a ha).symm) _ ∅

/-- Closed instance of C1 on the three-agent scenario of the spec. -/
theorem plan_and_decomposer_layering_identical_witness :
    (create_parallel_execution_plan
      [⟨"shopcore", "", 1, [], []⟩,
       ⟨"shipstream", "", 1, ["shopcore"], []⟩,
       ⟨"caredesk", "", 1, ["shopcore"], []⟩]).batches =
    determine_order ["shipstream", "caredesk", "shopcore"]
      (fun a => if a = "shipstream" then ["shopcore"]
                else if a = "caredesk" then ["shopcore"] else []) :=
  plan_and_decomposer_layering_identical _ _ _ (by decide) (by decide)

/-- C2: for a well-formed acyclic requirement list (no self dependency,
cycle-freeness expressed by a rank function that strictly decreases along
depends_on, every dependency itself a required agent), every agent lands in
a batch of strictly greater index than each of its dependencies. -/
theorem plan_batch_index_exceeds_dependency_index
    (reqs : List AgentRequirement) (rank : String → Nat)
    (hself : ∀ r ∈ reqs, r.agent_name ∉ r.depends_on)
    (hclosed : ∀ a ∈ allAgents reqs, ∀ d ∈ planDeps reqs a, d ∈ allAgents reqs)
    (hrank : ∀ a ∈ allAgents reqs, ∀ d ∈ planDeps reqs a, rank d < rank a) :
    ∀ a ∈ allAgents reqs, ∀ d ∈ planDeps reqs a,
      ∃ i j, batchIndex a (create_parallel_execution_plan reqs).batches = some i ∧
        batchIndex d (create_parallel_execution_plan reqs).batches = some j ∧ j < i := by
  intro a ha d hd
  have hbatches : (create_parallel_execution_plan reqs).batches =
      planRounds (planDeps reqs) (allAgents reqs) (allAgents reqs).card ∅ := rfl
  set deps := planDeps reqs
  set all := allAgents reqs
  set L := planRounds deps all all.card ∅ with hL
  have hdisj : batchesDisjointFrom ∅ L := planRounds_disjoint deps all all.card ∅
  have hresp : depsRespected deps ∅ L :=
    planRounds_depsRespected deps all rank hclosed hrank all.card ∅
      (Finset.empty_subset all)
  have hcomp := planRounds_complete deps all all.card ∅ (Finset.empty_subset all)
    (by rw [Finset.sdiff_empty]) a ha
  rcases hcomp with habs | ⟨b, hbL, hab⟩
  · exact absurd habs (Finset.not_mem_empty a)
  obtain ⟨i, hi⟩ := List.mem_iff_get?.mp hbL
  have hia : batchIndex a L = some i := batchIndex_of_get a L ∅ hdisj i b hi hab
  rcases depsRespected_earlier deps L ∅ hresp i b hi a hab d hd with
    habs | ⟨j, hji, c, hc, hdc⟩
  · exact absurd habs (Finset.not_mem_empty d)
  have hjd : batchIndex d L = some j := batchIndex_of_get d L ∅ hdisj j c hc hdc
  exact ⟨i, j, by rw [hbatches]; exact hia, by rw [hbatches]; exact hjd, hji⟩

/-- Closed instance of C2 on the three-agent scenario of the spec, with the
rank function witnessing acyclicity, at the shipstream-depends-on-shopcore
edge. -/
theorem plan_batch_index_exceeds_dependency_index_witness :
    ∃ i j, batchIndex "shipstream" (create_parallel_execution_plan
        [⟨"shopcore", "", 1, [], []⟩,
         ⟨"shipstream", "", 1, ["shopcore"], []⟩,
         ⟨"caredesk", "", 1, ["shopcore"], []⟩]).batches = some i ∧
      batchIndex "shopcore" (create_parallel_execution_plan
        [⟨"shopcore", "", 1, [], []⟩,
         ⟨"shipstream", "", 1, ["shopcore"], []⟩,
         ⟨"caredesk", "", 1, ["shopcore"], []⟩]).batches = some j ∧ j < i :=
  plan_batch_index_exceeds_dependency_index
    [⟨"shopcore", "", 1, [], []⟩,
     ⟨"shipstream", "", 1, ["shopcore"], []⟩,
     ⟨"caredesk", "", 1, ["shopcore"], []⟩]
    (fun s => if s = "shopcore" then 0 else 1)
    (by decide) (by decide) (by decide) "shipstream" (by decide) "shopcore" (by decide)

/-- C9: for every requirement list, cyclic or not, the planner stops after
at most as many rounds as there are distinct agents, every required agent
name lands in exactly one batch, and no emitted batch is empty. -/
theorem plan_terminates_covers_all_batches_nonempty (reqs : List AgentRequirement) :
    (create_parallel_execution_plan reqs).batches.length ≤ (allAgents reqs).card ∧
    (∀ a ∈ allAgents reqs,
      (create_parallel_execution_plan reqs).batches.countP (fun b => decide (a ∈ b)) = 1) ∧
    (∀ b ∈ (create_parallel_execution_plan reqs).batches, b ≠ ∅) := by
  have hbatches : (create_parallel_execution_plan reqs).batches =
      planRounds (planDeps reqs) (allAgents reqs) (allAgents reqs).card ∅ := rfl
  set deps := planDeps reqs
  set all := allAgents reqs
  set L := planRounds deps all all.card ∅ with hL
  rw [hbatches]
  refine ⟨?_, ?_, ?_⟩
  · have := planRounds_length deps all all.card ∅ (Finset.empty_subset all)
    rwa [Finset.sdiff_empty] at this
  · intro a ha
    have hcomp := planRounds_complete deps all all.card ∅ (Finset.empty_subset all)
      (by rw [Finset.sdiff_empty]) a ha
    rcases hcomp with habs | hex
    · exact absurd habs (Finset.not_mem_empty a)
    · exact countP_eq_one_of_mem a L ∅ (planRounds_disjoint deps all all.card ∅) hex
  · exact planRounds_nonempty_batches deps all all.card ∅ (Finset.empty_subset all)

/-! ## apps/orchestrator/cache.py : string helpers

Python string operations are modelled on character lists; the inputs the
claims exercise are ASCII, where Char.toLower and Char.isWhitespace agree
with the Python methods. -/

/-- Python pattern-in-string containment test. -/
def hasInfix (pat : List Char) : List Char → Bool
  | [] => pat.isEmpty
  | c :: rest => pat.isPrefixOf (c :: rest) || hasInfix pat rest

/-- Python substring containment: pat in hay. -/
def strContains (hay pat : String) : Bool := hasInfix pat.toList hay.toList

/-- Python str.replace(pat, empty string): removes the non-overlapping
occurrences left to right.  Fuel-indexed; the entry point passes the
length of the scanned text, which suffices because every step consumes at
least one character (all patterns used are nonempty). -/
def removeAllSub (pat : List Char) : Nat → List Char → List Char
  | _, [] => []
  | 0, s => s
  | fuel + 1, c :: rest =>
    if pat.isPrefixOf (c :: rest) then removeAllSub pat fuel ((c :: rest).drop pat.length)
    else c :: removeAllSub pat fuel rest

/-- Python str.lower restricted to the ASCII fragment the claims use. -/
def pyLower (s : String) : String := String.mk (s.toList.map Char.toLower)

/-- Python str.strip. -/
def pyTrim (s : List Char) : List Char :=
  ((s.dropWhile Char.isWhitespace).reverse.dropWhile Char.isWhitespace).reverse

/-- Python str.split() with no argument: maximal nonempty runs of
non-whitespace characters. -/
def wordsAux (acc : List Char) : List Char → List (List Char)
  | [] => if acc.isEmpty then [] else [acc.reverse]
  | c :: rest =>
    if c.isWhitespace then
      if acc.isEmpty then wordsAux [] rest else acc.reverse :: wordsAux [] rest
    else wordsAux (c :: acc) rest

/-- A single space between words: the join of the split. -/
def joinSpace : List (List Char) → List Char
  | [] => []
  | [w] => w
  | w :: rest => w ++ ' ' :: joinSpace rest

/-- The stop-word list of IntentCache._hash_query, in source order. -/
def STOP_WORDS : List String :=
  ["please", "can", "you", "tell", "me", "show", "the", "a", "an"]

/-- The normalization performed by IntentCache._hash_query before hashing:
lower-case, strip, remove each stop word as a substring (in list order),
collapse whitespace. -/
def normalize_query (q : String) : String :=
  let base := pyTrim (q.toList.map Char.toLower)
  let stripped := STOP_WORDS.foldl (fun acc w => removeAllSub w.toList acc.length acc) base
  String.mk (joinSpace (wordsAux [] stripped))

/-- Model of IntentCache._hash_query.  The source feeds the normalized
text to md5 and keeps 16 hex characters; hashing is a function of the
normalized text and the cache only ever compares keys for equality, so
the embedding uses the normalized text itself as the key.  Queries with
equal normalizations provably collide in the source as well. -/
def hash_query (q : String) : String := normalize_query q

/-! ## apps/orchestrator/cache.py : IntentCache -/

/-- The QueryPattern enumeration of cache.py. -/
inductive QueryPattern
  | order_by_product | order_by_id | user_orders | recent_orders
  | track_shipment | shipment_by_order | user_transactions | refund_status
  | user_tickets | ticket_by_order | wallet_balance | unknown
deriving DecidableEq, Repr

/-- The CachedIntent dataclass.  Confidence floats are only stored, never
computed with, and are modelled as rationals; datetimes are Nat
timestamps passed in from the caller. -/
structure CachedIntent where
  intent : String
  confidence : ℚ
  entities : List (String × String)
  required_agents : List String
  pattern : QueryPattern
  timestamp : Nat
  ttl_seconds : Nat := 3600
deriving DecidableEq, Repr

/-- CachedIntent.is_expired: utcnow - timestamp > timedelta(ttl), which
over integer time is now > timestamp + ttl. -/
def CachedIntent.is_expired (c : CachedIntent) (now : Nat) : Bool :=
  decide (c.timestamp + c.ttl_seconds < now)

/-- The private dict of IntentCache: a Python dict is insertion-ordered
with unique keys, modelled as an association list. -/
structure IntentCache where
  cache : List (String × CachedIntent)
  max_size : Nat := 100
  ttl_seconds : Nat := 3600
  hits : Nat := 0
  misses : Nat := 0
deriving DecidableEq, Repr

def dictLookup (d : List (String × CachedIntent)) (k : String) : Option CachedIntent :=
  (d.find? (fun e => e.1 = k)).map (fun e => e.2)

def dictContains (d : List (String × CachedIntent)) (k : String) : Bool :=
  d.any (fun e => e.1 = k)

/-- Python dict assignment: overwrite in place when the key is present
(keeping its position), otherwise append. -/
def dictInsert (d : List (String × CachedIntent)) (k : String) (v : CachedIntent) :
    List (String × CachedIntent) :=
  if dictContains d k then d.map (fun e => if e.1 = k then (k, v) else e)
  else d ++ [(k, v)]

/-- Python del d(key). -/
def dictErase (d : List (String × CachedIntent)) (k : String) :
    List (String × CachedIntent) :=
  d.filter (fun e => ¬ e.1 = k)

def cacheKeys (d : List (String × CachedIntent)) : List String :=
  d.map (fun e => e.1)

def oldestAux : String × Nat → List (String × CachedIntent) → String
  | best, [] => best.1
  | best, (k, v) :: rest =>
    if v.timestamp < best.2 then oldestAux (k, v.timestamp) rest
    else oldestAux best rest

/-- Python min(dict, key=lambda k: dict(k).timestamp): the first key in
insertion order attaining the minimal timestamp; none on an empty dict
(where the Python call would raise ValueError, a state unreachable from
the constructed caches because eviction only runs on a cache holding at
least max_size of at least 1 entries). -/
def oldestKey : List (String × CachedIntent) → Option String
  | [] => none
  | (k, v) :: rest => some (oldestAux (k, v.timestamp) rest)

/-- IntentCache.get (cache.py lines 210-224). -/
def IntentCache.get (c : IntentCache) (q : String) (now : Nat) :
    Option CachedIntent × IntentCache :=
  let key := hash_query q
  match dictLookup c.cache key with
  | some cached =>
    if cached.is_expired now then
      (none, { c with cache := dictErase c.cache key, misses := c.misses + 1 })
    else
      (some cached, { c with hits := c.hits + 1 })
  | none => (none, { c with misses := c.misses + 1 })

/-- IntentCache.set (cache.py lines 226-245): evict the oldest entry when
len(cache) is at least max_size, then store the new entry. -/
def IntentCache.set (c : IntentCache) (q intent : String) (confidence : ℚ)
    (entities : List (String × String)) (agents : List String)
    (pattern : QueryPattern) (now : Nat) : IntentCache :=
  let key := hash_query q
  let d := if c.max_size ≤ c.cache.length then
      match oldestKey c.cache with
      | some ok => dictErase c.cache ok
      | none => c.cache
    else c.cache
  let v : CachedIntent :=
    { intent := intent, confidence := confidence, entities := entities,
      required_agents := agents, pattern := pattern,
      timestamp := now, ttl_seconds := c.ttl_seconds }
  { c with cache := dictInsert d key v }

/-- One recorded call to IntentCache.set. -/
structure SetCall where
  query : String
  intent : String
  confidence : ℚ
  entities : List (String × String)
  agents : List String
  pattern : QueryPattern
  now : Nat

def IntentCache.setCall (c : IntentCache) (s : SetCall) : IntentCache :=
  c.set s.query s.intent s.confidence s.entities s.agents s.pattern s.now

def runSets (c : IntentCache) : List SetCall → IntentCache
  | [] => c
  | s :: rest => runSets (c.setCall s) rest

/-! ## apps/orchestrator/cache.py : QueryDecomposer -/

def CONJUNCTIONS : List String :=
  [" and ", " also ", " plus ", " as well as ", ", and ", " & "]

def INTENT_KEYWORDS : List (String × List String) :=
  [("order_inquiry", ["order", "ordered", "purchase", "bought"]),
   ("delivery_tracking", ["delivery", "shipment", "tracking", "shipped", "arrived", "where is"]),
   ("refund_request", ["refund", "money back", "return"]),
   ("payment_history", ["payment", "transaction", "paid", "wallet"]),
   ("ticket_status", ["ticket", "support", "issue", "complaint", "help"])]

/-- QueryDecomposer.is_multi_intent. -/
def is_multi_intent (q : String) : Bool :=
  let ql := pyLower q
  CONJUNCTIONS.any (fun conj => strContains ql conj) ||
    decide (1 < (INTENT_KEYWORDS.filter
      (fun p => p.2.any (fun kw => strContains ql kw))).length)

/-- One entry of DecomposedQuery.sub_queries. -/
structure SubQuery where
  intent : String
  keyword : String
  agent : String
  original_query : String
deriving DecidableEq, Repr

/-- QueryDecomposer._intent_to_agent. -/
def intent_to_agent (intent : String) : String :=
  if intent = "order_inquiry" then "shopcore"
  else if intent = "delivery_tracking" then "shipstream"
  else if intent = "refund_request" then "payguard"
  else if intent = "payment_history" then "payguard"
  else if intent = "ticket_status" then "caredesk"
  else "shopcore"

/-- The first loop of QueryDecomposer.decompose: for each intent category
in table order, the first keyword contained in the lowered query. -/
def foundIntents (q : String) : List (String × String) :=
  let ql := pyLower q
  INTENT_KEYWORDS.filterMap
    (fun p => (p.2.find? (fun kw => strContains ql kw)).map (fun kw => (p.1, kw)))

/-- The duplicate-removal loop of decompose: keep the first occurrence of
each intent category. -/
def dedupIntentsAux (seen : List String) : List (String × String) → List (String × String)
  | [] => []
  | (i, kw) :: rest =>
    if i ∈ seen then dedupIntentsAux seen rest
    else (i, kw) :: dedupIntentsAux (i :: seen) rest

/-- QueryDecomposer._build_dependencies: shipstream, payguard and caredesk
depend on shopcore when shopcore is present; caredesk additionally depends
on payguard when payguard is present. -/
def build_dependencies (subs : List SubQuery) : String → List String := fun agent =>
  let agents := subs.map (fun sq => sq.agent)
  if agent ∈ agents then
    (if (agent = "shipstream" ∨ agent = "payguard" ∨ agent = "caredesk")
        ∧ "shopcore" ∈ agents then ["shopcore"] else []) ++
    (if agent = "caredesk" ∧ "payguard" ∈ agents then ["payguard"] else [])
  else []

structure DecomposedQuery where
  sub_queries : List SubQuery
  dependencies : String → List String
  execution_order : List (Finset String)

/-- QueryDecomposer.decompose (cache.py lines 296-336). -/
def decompose (q : String) : DecomposedQuery :=
  let uniq := dedupIntentsAux [] (foundIntents q)
  let subs := uniq.map (fun p => SubQuery.mk p.1 p.2 (intent_to_agent p.1) q)
  let deps := build_dependencies subs
  { sub_queries := subs
    dependencies := deps
    execution_order := determine_order (subs.map (fun sq => sq.agent)) deps }

/-! ## Dict lemmas for the cache -/

lemma dictLookup_map_replace (k : String) (v : CachedIntent) :
    ∀ d, dictContains d k = true →
      dictLookup (d.map (fun e => if e.1 = k then (k, v) else e)) k = some v := by
  intro d
  induction d with
  | nil => intro h; simp [dictContains] at h
  | cons e rest ih =>
    intro h
    by_cases he : e.1 = k
    · unfold dictLookup
      rw [List.map_cons, if_pos he, List.find?_cons_of_pos _ (by simp)]
      rfl
    · have hrest : dictContains rest k = true := by
        simp [dictContains] at h ⊢
        rcases h with h1 | h2
        · exact absurd h1 he
        · exact h2
      unfold dictLookup at ih ⊢
      rw [List.map_cons, if_neg he, List.find?_cons_of_neg _ (by simp [he])]
      exact ih hrest

lemma dictLookup_append_single (k : String) (v : CachedIntent) :
    ∀ d, dictContains d k = false →
      dictLookup (d ++ [(k, v)]) k = some v := by
  intro d
  induction d with
  | nil =>
    intro _
    unfold dictLookup
    rw [List.nil_append, List.find?_cons_of_pos _ (by simp)]
    rfl
  | cons e rest ih =>
    intro h
    have hparts : ¬ e.1 = k ∧ dictContains rest k = false := by
      constructor
      · intro he
        have ht : dictContains (e :: rest) k = true := by simp [dictContains, he]
        rw [ht] at h
        exact Bool.noConfusion h
      · by_contra hc
        have ht2 : dictContains rest k = true := by
          revert hc
          cases dictContains rest k <;> simp
        have ht : dictContains (e :: rest) k = true := by
          simp [dictContains] at ht2 ⊢
          exact Or.inr ht2
        rw [ht] at h
        exact Bool.noConfusion h
    unfold dictLookup at ih ⊢
    rw [List.cons_append, List.find?_cons_of_neg _ (by simp [hparts.1])]
    exact ih hparts.2

lemma dictLookup_dictInsert_self (k : String) (v : CachedIntent)
    (d : List (String × CachedIntent)) :
    dictLookup (dictInsert d k v) k = some v := by
  unfold dictInsert
  by_cases h : dictContains d k
  · rw [if_pos h]
    exact dictLookup_map_replace k v d h
  · rw [if_neg h]
    exact dictLookup_append_single k v d (by revert h; cases dictContains d k <;> simp)

lemma keys_map_replace (k : String) (v : CachedIntent) (d : List (String × CachedIntent)) :
    cacheKeys (d.map (fun e => if e.1 = k then (k, v) else e)) = cacheKeys d := by
  unfold cacheKeys
  rw [List.map_map]
  apply List.map_congr_left
  intro e _
  by_cases he : e.1 = k
  · simp [he]
  · simp [he]

lemma mem_keys_iff_contains (d : List (String × CachedIntent)) (k : String) :
    k ∈ cacheKeys d ↔ dictContains d k = true := by
  simp only [cacheKeys, dictContains, List.mem_map, List.any_eq_true,
    decide_eq_true_eq]

lemma mem_keys_dictInsert (d : List (String × CachedIntent)) (k k' : String)
    (v : CachedIntent) :
    k' ∈ cacheKeys (dictInsert d k v) ↔ k' ∈ cacheKeys d ∨ k' = k := by
  unfold dictInsert
  by_cases h : dictContains d k
  · rw [if_pos h, keys_map_replace]
    constructor
    · exact Or.inl
    · rintro (h1 | rfl)
      · exact h1
      · exact (mem_keys_iff_contains d k').mpr h
  · rw [if_neg h]
    unfold cacheKeys
    rw [List.map_append]
    simp

lemma mem_keys_dictErase (d : List (String × CachedIntent)) (k k' : String) :
    k' ∈ cacheKeys (dictErase d k) ↔ k' ∈ cacheKeys d ∧ k' ≠ k := by
  unfold dictErase cacheKeys
  simp only [List.mem_map, List.mem_filter, decide_eq_true_eq]
  constructor
  · rintro ⟨e, ⟨he, hek⟩, rfl⟩
    exact ⟨⟨e, he, rfl⟩, hek⟩
  · rintro ⟨⟨e, he, rfl⟩, hk⟩
    exact ⟨e, ⟨he, hk⟩, rfl⟩

lemma length_dictInsert (d : List (String × CachedIntent)) (k : String) (v : CachedIntent) :
    (dictInsert d k v).length = if dictContains d k then d.length else d.length + 1 := by
  unfold dictInsert
  by_cases h : dictContains d k
  · rw [if_pos h, if_pos h, List.length_map]
  · rw [if_neg h, if_neg h, List.length_append]
    rfl

lemma dictErase_eq_self (d : List (String × CachedIntent)) (k : String)
    (h : k ∉ cacheKeys d) : dictErase d k = d := by
  unfold dictErase
  apply List.filter_eq_self.mpr
  intro e he
  simp only [decide_eq_true_eq]
  intro hek
  apply h
  rw [← hek]
  exact List.mem_map_of_mem _ he

lemma length_dictErase_add_one (k : String) :
    ∀ d : List (String × CachedIntent), (cacheKeys d).Nodup → k ∈ cacheKeys d →
      (dictErase d k).length + 1 = d.length := by
  intro d
  induction d with
  | nil => intro _ hk; simp [cacheKeys] at hk
  | cons e rest ih =>
    intro hnd hk
    simp only [cacheKeys, List.map_cons, List.nodup_cons] at hnd
    by_cases he : e.1 = k
    · have hrest : k ∉ cacheKeys rest := by
        rw [← he]
        exact hnd.1
      have : dictErase (e :: rest) k = dictErase rest k := by
        simp [dictErase, he]
      rw [this, dictErase_eq_self rest k hrest]
      simp
    · have hkrest : k ∈ cacheKeys rest := by
        simp only [cacheKeys, List.map_cons, List.mem_cons] at hk
        rcases hk with h1 | h2
        · exact absurd h1.symm he
        · exact h2
      have : dictErase (e :: rest) k = e :: dictErase rest k := by
        simp [dictErase, he]
      rw [this]
      simp only [List.length_cons]
      rw [ih hnd.2 hkrest]

lemma nodup_keys_dictInsert (d : List (String × CachedIntent)) (k : String)
    (v : CachedIntent) (h : (cacheKeys d).Nodup) :
    (cacheKeys (dictInsert d k v)).Nodup := by
  unfold dictInsert
  by_cases hc : dictContains d k
  · rw [if_pos hc, keys_map_replace]
    exact h
  · rw [if_neg hc]
    have hkeys : cacheKeys (d ++ [(k, v)]) = cacheKeys d ++ [k] := by
      unfold cacheKeys
      rw [List.map_append]
      rfl
    rw [hkeys, List.nodup_append]
    refine ⟨h, List.nodup_singleton k, ?_⟩
    intro a ha hb
    simp only [List.mem_singleton] at hb
    subst hb
    rw [mem_keys_iff_contains] at ha
    rw [ha] at hc
    exact hc rfl

lemma nodup_keys_dictErase (d : List (String × CachedIntent)) (k : String)
    (h : (cacheKeys d).Nodup) : (cacheKeys (dictErase d k)).Nodup := by
  have hsub : List.Sublist (dictErase d k) d := by
    unfold dictErase
    exact List.filter_sublist d
  unfold cacheKeys at h ⊢
  exact h.sublist (hsub.map (fun e => e.1))

lemma oldestAux_spec :
    ∀ (rest : List (String × CachedIntent)) (best : String × Nat),
      (oldestAux best rest = best.1 ∧ ∀ e ∈ rest, best.2 ≤ e.2.timestamp) ∨
      (∃ e ∈ rest, oldestAux best rest = e.1 ∧ e.2.timestamp < best.2 ∧
        ∀ e' ∈ rest, e.2.timestamp ≤ e'.2.timestamp) := by
  intro rest
  induction rest with
  | nil => intro best; left; exact ⟨rfl, by simp⟩
  | cons p rest ih =>
    intro best
    obtain ⟨k, v⟩ := p
    by_cases hlt : v.timestamp < best.2
    · rcases ih (k, v.timestamp) with ⟨heq, hmin⟩ | ⟨e, he, heq, hlt2, hmin⟩
      · right
        refine ⟨(k, v), List.mem_cons_self _ _, ?_, hlt, ?_⟩
        · simpa [oldestAux, hlt] using heq
        · intro e' he'
          rcases List.mem_cons.mp he' with rfl | hmem
          · exact le_refl _
          · exact hmin e' hmem
      · right
        refine ⟨e, List.mem_cons_of_mem _ he, ?_, by omega, ?_⟩
        · simpa [oldestAux, hlt] using heq
        · intro e' he'
          rcases List.mem_cons.mp he' with rfl | hmem
          · simp only []
            omega
          · exact hmin e' hmem
    · rcases ih best with ⟨heq, hmin⟩ | ⟨e, he, heq, hlt2, hmin⟩
      · left
        refine ⟨by simpa [oldestAux, hlt] using heq, ?_⟩
        intro e' he'
        rcases List.mem_cons.mp he' with rfl | hmem
        · simp only []
          omega
        · exact hmin e' hmem
      · right
        refine ⟨e, List.mem_cons_of_mem _ he, by simpa [oldestAux, hlt] using heq,
          hlt2, ?_⟩
        intro e' he'
        rcases List.mem_cons.mp he' with rfl | hmem
        · simp only []
          omega
        · exact hmin e' hmem

/-- The evicted key names an entry of minimal timestamp. -/
lemma oldestKey_spec (d : List (String × CachedIntent)) (k : String)
    (h : oldestKey d = some k) :
    ∃ v, (k, v) ∈ d ∧ ∀ e ∈ d, v.timestamp ≤ e.2.timestamp := by
  cases d with
  | nil => simp [oldestKey] at h
  | cons p rest =>
    obtain ⟨k0, v0⟩ := p
    simp only [oldestKey, Option.some.injEq] at h
    rcases oldestAux_spec rest (k0, v0.timestamp) with ⟨heq, hmin⟩ | ⟨e, he, heq, hlt, hmin⟩
    · refine ⟨v0, ?_, ?_⟩
      · rw [← h, heq]
        exact List.mem_cons_self _ _
      · intro e' he'
        rcases List.mem_cons.mp he' with rfl | hmem
        · exact le_refl _
        · exact hmin e' hmem
    · refine ⟨e.2, ?_, ?_⟩
      · rw [← h, heq]
        exact List.mem_cons_of_mem _ (by simpa using he)
      · intro e' he'
        rcases List.mem_cons.mp he' with rfl | hmem
        · simp only []
          omega
        · exact hmin e' hmem

lemma oldestKey_isSome (d : List (String × CachedIntent)) (hne : d ≠ []) :
    ∃ k, oldestKey d = some k := by
  cases d with
  | nil => exact absurd rfl hne
  | cons p rest => exact ⟨oldestAux (p.1, p.2.timestamp) rest, by cases p; rfl⟩

/-- The cache dict produced by one set call, exposing the eviction branch. -/
lemma set_cache_eq (c : IntentCache) (q intent : String) (confidence : ℚ)
    (entities : List (String × String)) (agents : List String)
    (pattern : QueryPattern) (now : Nat) :
    (c.set q intent confidence entities agents pattern now).cache =
      dictInsert (if c.max_size ≤ c.cache.length then
          match oldestKey c.cache with
          | some ok => dictErase c.cache ok
          | none => c.cache
        else c.cache) (hash_query q)
        { intent := intent, confidence := confidence, entities := entities,
          required_agents := agents, pattern := pattern,
          timestamp := now, ttl_seconds := c.ttl_seconds } := rfl

/-- C5: a set followed by a get of the same query with no intervening call
returns exactly the stored fields while the elapsed time is at most the
TTL, and misses once the elapsed time strictly exceeds the TTL. -/
theorem cache_set_get_roundtrip_ttl (c : IntentCache) (q intent : String)
    (confidence : ℚ) (entities : List (String × String)) (agents : List String)
    (pattern : QueryPattern) (now now' : Nat) :
    (now' ≤ now + c.ttl_seconds →
      ((c.set q intent confidence entities agents pattern now).get q now').1 =
        some { intent := intent, confidence := confidence, entities := entities,
               required_agents := agents, pattern := pattern,
               timestamp := now, ttl_seconds := c.ttl_seconds }) ∧
    (now + c.ttl_seconds < now' →
      ((c.set q intent confidence entities agents pattern now).get q now').1 = none) := by
  have hlook : dictLookup (c.set q intent confidence entities agents pattern now).cache
      (hash_query q) =
      some { intent := intent, confidence := confidence, entities := entities,
             required_agents := agents, pattern := pattern,
             timestamp := now, ttl_seconds := c.ttl_seconds } := by
    rw [set_cache_eq]
    exact dictLookup_dictInsert_self _ _ _
  constructor
  · intro h
    have hexp : CachedIntent.is_expired
        { intent := intent, confidence := confidence, entities := entities,
          required_agents := agents, pattern := pattern,
          timestamp := now, ttl_seconds := c.ttl_seconds } now' = false := by
      simp only [CachedIntent.is_expired, decide_eq_false_iff_not]
      omega
    simp [IntentCache.get, hlook, hexp]
  · intro h
    have hexp : CachedIntent.is_expired
        { intent := intent, confidence := confidence, entities := entities,
          required_agents := agents, pattern := pattern,
          timestamp := now, ttl_seconds := c.ttl_seconds } now' = true := by
      simp only [CachedIntent.is_expired, decide_eq_true_eq]
      omega
    simp [IntentCache.get, hlook, hexp]

/-- Closed instance of C5 at the TTL boundary: a hit at exactly ttl
seconds after the set, a miss one second later. -/
theorem cache_set_get_roundtrip_ttl_witness :
    ((IntentCache.set ⟨[], 100, 3600, 0, 0⟩ "where is order" "i" 1 []
        ["shopcore"] QueryPattern.unknown 5).get "where is order" 3605).1 =
      some ⟨"i", 1, [], ["shopcore"], QueryPattern.unknown, 5, 3600⟩ ∧
    ((IntentCache.set ⟨[], 100, 3600, 0, 0⟩ "where is order" "i" 1 []
        ["shopcore"] QueryPattern.unknown 5).get "where is order" 3606).1 = none :=
  ⟨(cache_set_get_roundtrip_ttl ⟨[], 100, 3600, 0, 0⟩ "where is order" "i" 1 []
      ["shopcore"] QueryPattern.unknown 5 3605).1 (by decide),
   (cache_set_get_roundtrip_ttl ⟨[], 100, 3600, 0, 0⟩ "where is order" "i" 1 []
      ["shopcore"] QueryPattern.unknown 5 3606).2 (by decide)⟩

/-- C4 counterexample: with capacity 1, after a single set the cache holds
exactly its capacity, never strictly more, yet the next set call evicts
the stored entry.  Eviction fires at len greater or equal max_size, not
only strictly above it as the claim states. -/
theorem cache_eviction_at_capacity_counterexample :
    ((IntentCache.set ⟨[], 1, 3600, 0, 0⟩ "x" "i1" 1 [] []
        QueryPattern.unknown 0).cache.length = 1 ∧ ¬ (1 > 1)) ∧
    dictLookup ((IntentCache.set (IntentCache.set ⟨[], 1, 3600, 0, 0⟩ "x" "i1" 1 [] []
        QueryPattern.unknown 0) "z" "i2" 1 [] [] QueryPattern.unknown 1).cache)
      (hash_query "x") = none := by decide

/-- One set call keeps the key set sound and the size bounded. -/
lemma set_preserves_bound_and_nodup (c : IntentCache) (s : SetCall)
    (hm : 1 ≤ c.max_size) (hnd : (cacheKeys c.cache).Nodup)
    (hlen : c.cache.length ≤ c.max_size) :
    (c.setCall s).cache.length ≤ c.max_size ∧
      (cacheKeys (c.setCall s).cache).Nodup := by
  have hset := set_cache_eq c s.query s.intent s.confidence s.entities s.agents
    s.pattern s.now
  by_cases hge : c.max_size ≤ c.cache.length
  · have hne : c.cache ≠ [] := by
      intro hnil
      rw [hnil] at hge
      simp at hge
      omega
    obtain ⟨ok, hok⟩ := oldestKey_isSome c.cache hne
    have hokmem : ok ∈ cacheKeys c.cache := by
      obtain ⟨v, hv, _⟩ := oldestKey_spec c.cache ok hok
      exact List.mem_map_of_mem _ hv
    have hcache : (c.setCall s).cache =
        dictInsert (dictErase c.cache ok) (hash_query s.query)
          { intent := s.intent, confidence := s.confidence, entities := s.entities,
            required_agents := s.agents, pattern := s.pattern,
            timestamp := s.now, ttl_seconds := c.ttl_seconds } := by
      rw [IntentCache.setCall, hset, if_pos hge, hok]
    have herase : (dictErase c.cache ok).length + 1 = c.cache.length :=
      length_dictErase_add_one ok c.cache hnd hokmem
    have hndE : (cacheKeys (dictErase c.cache ok)).Nodup :=
      nodup_keys_dictErase c.cache ok hnd
    constructor
    · rw [hcache, length_dictInsert]
      by_cases hcont : dictContains (dictErase c.cache ok) (hash_query s.query)
      · rw [if_pos hcont]; omega
      · rw [if_neg hcont]; omega
    · rw [hcache]
      exact nodup_keys_dictInsert _ _ _ hndE
  · have hlt : c.cache.length < c.max_size := by omega
    have hcache : (c.setCall s).cache =
        dictInsert c.cache (hash_query s.query)
          { intent := s.intent, confidence := s.confidence, entities := s.entities,
            required_agents := s.agents, pattern := s.pattern,
            timestamp := s.now, ttl_seconds := c.ttl_seconds } := by
      rw [IntentCache.setCall, hset, if_neg hge]
    constructor
    · rw [hcache, length_dictInsert]
      by_cases hcont : dictContains c.cache (hash_query s.query)
      · rw [if_pos hcont]; omega
      · rw [if_neg hcont]; omega
    · rw [hcache]
      exact nodup_keys_dictInsert _ _ _ hnd

lemma runSets_bound (m ttl : Nat) (hm : 1 ≤ m) :
    ∀ (calls : List SetCall) (c : IntentCache), c.max_size = m →
      (cacheKeys c.cache).Nodup → c.cache.length ≤ m →
      (runSets c calls).cache.length ≤ m := by
  intro calls
  induction calls with
  | nil => intro c hmax _ hlen; rw [runSets]; rw [← hmax] at hlen; rw [hmax] at hlen; exact hlen
  | cons s rest ih =>
    intro c hmax hnd hlen
    rw [runSets]
    have hpres := set_preserves_bound_and_nodup c s (by omega) hnd (by omega)
    exact ih (c.setCall s) (by rw [← hmax]; rfl) hpres.2 (by rw [← hmax] at *; exact hpres.1)

/-- C4 amended: a set call evicts exactly when the cache already holds at
least max_size entries (not only strictly more); the single evicted key is
the first key of minimal created_at timestamp; every other existing key
survives, so no call removes more than one entry; and, for a positive
capacity, the size of a cache grown from empty never exceeds max_size. -/
theorem cache_set_eviction_characterization (c : IntentCache) (s : SetCall) :
    (c.cache.length < c.max_size →
      ∀ k, dictContains (c.setCall s).cache k = true ↔
        (dictContains c.cache k = true ∨ k = hash_query s.query)) ∧
    (c.max_size ≤ c.cache.length → c.cache ≠ [] →
      ∃ ok, oldestKey c.cache = some ok ∧
        (∃ v, (ok, v) ∈ c.cache ∧ ∀ e ∈ c.cache, v.timestamp ≤ e.2.timestamp) ∧
        ∀ k, dictContains (c.setCall s).cache k = true ↔
          ((dictContains c.cache k = true ∧ k ≠ ok) ∨ k = hash_query s.query)) ∧
    (∀ (m ttl : Nat) (calls : List SetCall), 1 ≤ m →
      (runSets { cache := [], max_size := m, ttl_seconds := ttl,
                 hits := 0, misses := 0 } calls).cache.length ≤ m) := by
  have hset := set_cache_eq c s.query s.intent s.confidence s.entities s.agents
    s.pattern s.now
  refine ⟨?_, ?_, ?_⟩
  · intro hlt k
    have hcache : (c.setCall s).cache =
        dictInsert c.cache (hash_query s.query)
          { intent := s.intent, confidence := s.confidence, entities := s.entities,
            required_agents := s.agents, pattern := s.pattern,
            timestamp := s.now, ttl_seconds := c.ttl_seconds } := by
      rw [IntentCache.setCall, hset, if_neg (by omega)]
    rw [hcache, ← mem_keys_iff_contains, ← mem_keys_iff_contains,
      mem_keys_dictInsert]
  · intro hge hne
    obtain ⟨ok, hok⟩ := oldestKey_isSome c.cache hne
    obtain ⟨v, hv, hvmin⟩ := oldestKey_spec c.cache ok hok
    refine ⟨ok, hok, ⟨v, hv, hvmin⟩, ?_⟩
    intro k
    have hcache : (c.setCall s).cache =
        dictInsert (dictErase c.cache ok) (hash_query s.query)
          { intent := s.intent, confidence := s.confidence, entities := s.entities,
            required_agents := s.agents, pattern := s.pattern,
            timestamp := s.now, ttl_seconds := c.ttl_seconds } := by
      rw [IntentCache.setCall, hset, if_pos hge, hok]
    rw [hcache, ← mem_keys_iff_contains, ← mem_keys_iff_contains,
      mem_keys_dictInsert, mem_keys_dictErase]
  · intro m ttl calls hm
    exact runSets_bound m ttl hm calls _ rfl (by simp [cacheKeys]) (by simp)

/-- Closed instance of C4 amended on a capacity-2 cache at capacity. -/
theorem cache_set_eviction_characterization_witness :
    (∃ ok, oldestKey (IntentCache.mk
        [("a1", ⟨"i1", 1, [], [], QueryPattern.unknown, 7, 3600⟩),
         ("b2", ⟨"i2", 1, [], [], QueryPattern.unknown, 3, 3600⟩)] 2 3600 0 0).cache =
        some ok ∧
      (∃ v, (ok, v) ∈ (IntentCache.mk
        [("a1", ⟨"i1", 1, [], [], QueryPattern.unknown, 7, 3600⟩),
         ("b2", ⟨"i2", 1, [], [], QueryPattern.unknown, 3, 3600⟩)] 2 3600 0 0).cache ∧
        ∀ e ∈ (IntentCache.mk
        [("a1", ⟨"i1", 1, [], [], QueryPattern.unknown, 7, 3600⟩),
         ("b2", ⟨"i2", 1, [], [], QueryPattern.unknown, 3, 3600⟩)] 2 3600 0 0).cache,
          v.timestamp ≤ e.2.timestamp) ∧
      ∀ k, dictContains ((IntentCache.mk
        [("a1", ⟨"i1", 1, [], [], QueryPattern.unknown, 7, 3600⟩),
         ("b2", ⟨"i2", 1, [], [], QueryPattern.unknown, 3, 3600⟩)] 2 3600 0 0).setCall
          ⟨"x", "i3", 1, [], [], QueryPattern.unknown, 9⟩).cache k = true ↔
        ((dictContains (IntentCache.mk
        [("a1", ⟨"i1", 1, [], [], QueryPattern.unknown, 7, 3600⟩),
         ("b2", ⟨"i2", 1, [], [], QueryPattern.unknown, 3, 3600⟩)] 2 3600 0 0).cache
            k = true ∧ k ≠ ok) ∨ k = hash_query "x")) :=
  (cache_set_eviction_characterization
    (IntentCache.mk
      [("a1", ⟨"i1", 1, [], [], QueryPattern.unknown, 7, 3600⟩),
       ("b2", ⟨"i2", 1, [], [], QueryPattern.unknown, 3, 3600⟩)] 2 3600 0 0)
    ⟨"x", "i3", 1, [], [], QueryPattern.unknown, 9⟩).2.1 (by decide) (by decide)

/-- C10: stop words are removed as plain substrings during key
normalization ("can" is cut out of "cancel"), so the distinct queries
"cancel order" and "cel order" share a cache key, and a get of the second
returns the intent stored for the first. -/
theorem stop_word_substring_key_collision :
    ("cancel order" : String) ≠ "cel order" ∧
    hash_query "cancel order" = hash_query "cel order" ∧
    ((IntentCache.set ⟨[], 100, 3600, 0, 0⟩ "cancel order" "order_inquiry" 1 []
        ["shopcore"] QueryPattern.unknown 0).get "cel order" 0).1.map
      CachedIntent.intent = some "order_inquiry" := by decide

/-! ## Claim theorems for QueryDecomposer.decompose -/

/-- C3 counterexample: the query "refund payment" detects the two intent
categories refund_request and payment_history, both owned by payguard; the
dedup loop of decompose keys on the intent category, not on the owning
service, so decompose emits two payguard sub-queries. -/
theorem decompose_one_subquery_per_service_counterexample :
    ¬ ((decompose "refund payment").sub_queries.countP
        (fun sq => decide (sq.agent = "payguard")) ≤ 1) := by decide

lemma dedupIntents_fst_nodup :
    ∀ (l : List (String × String)) (seen : List String),
      ((dedupIntentsAux seen l).map Prod.fst).Nodup ∧
      ∀ i ∈ (dedupIntentsAux seen l).map Prod.fst, i ∉ seen := by
  intro l
  induction l with
  | nil => intro seen; exact ⟨List.nodup_nil, by simp [dedupIntentsAux]⟩
  | cons p rest ih =>
    intro seen
    obtain ⟨i, kw⟩ := p
    by_cases hseen : i ∈ seen
    · simpa [dedupIntentsAux, hseen] using ih seen
    · obtain ⟨hnd, hdisj⟩ := ih (i :: seen)
      constructor
      · simp only [dedupIntentsAux, if_neg hseen, List.map_cons, List.nodup_cons]
        refine ⟨?_, hnd⟩
        intro hmem
        exact (hdisj i hmem) (List.mem_cons_self i seen)
      · intro j hj
        simp only [dedupIntentsAux, if_neg hseen, List.map_cons, List.mem_cons] at hj
        rcases hj with rfl | hj
        · exact hseen
        · intro hjseen
          exact (hdisj j hj) (List.mem_cons_of_mem i hjseen)

lemma countP_le_one_of_nodup {α : Type} [DecidableEq α] (l : List α)
    (hnd : l.Nodup) (a : α) :
    l.countP (fun x => decide (x = a)) ≤ 1 := by
  induction l with
  | nil => simp
  | cons b rest ih =>
    simp only [List.nodup_cons] at hnd
    rw [List.countP_cons]
    by_cases hba : b = a
    · subst hba
      have hz : rest.countP (fun x => decide (x = b)) = 0 := by
        rw [List.countP_eq_zero]
        intro x hx
        simp only [decide_eq_true_eq]
        intro hxb
        subst hxb
        exact hnd.1 hx
      simp [hz]
    · simp [hba, ih hnd.2]

/-- The dedup loop of decompose only ever removes entries, in place: its
output is a sublist of its input, so the surviving entries keep their
original relative order. -/
lemma dedupIntentsAux_sublist :
    ∀ (l : List (String × String)) (seen : List String),
      List.Sublist (dedupIntentsAux seen l) l := by
  intro l
  induction l with
  | nil => intro seen; exact List.Sublist.refl []
  | cons e rest ih =>
    intro seen
    obtain ⟨i, kw⟩ := e
    rw [dedupIntentsAux]
    by_cases h : i ∈ seen
    · rw [if_pos h]
      exact (ih seen).cons (i, kw)
    · rw [if_neg h]
      exact (ih (i :: seen)).cons₂ (i, kw)

/-- The dedup loop keeps exactly the first occurrence of each category not
already seen: an entry survives iff it is what find? returns for its own
category. -/
lemma dedupIntentsAux_mem_iff :
    ∀ (l : List (String × String)) (seen : List String) (p : String × String),
      p ∈ dedupIntentsAux seen l ↔
        (p.1 ∉ seen ∧ l.find? (fun e => e.1 = p.1) = some p) := by
  intro l
  induction l with
  | nil =>
    intro seen p
    simp [dedupIntentsAux]
  | cons e rest ih =>
    intro seen p
    obtain ⟨i, kw⟩ := e
    rw [dedupIntentsAux]
    by_cases hseen : i ∈ seen
    · rw [if_pos hseen, ih seen p]
      by_cases hpi : i = p.1
      · subst hpi
        constructor
        · rintro ⟨h1, _⟩
          exact absurd hseen h1
        · rintro ⟨h1, _⟩
          exact absurd hseen h1
      · rw [List.find?_cons_of_neg _ (by simp [hpi])]
    · rw [if_neg hseen]
      by_cases hpe : p = (i, kw)
      · subst hpe
        constructor
        · intro _
          exact ⟨hseen, by rw [List.find?_cons_of_pos _ (by simp)]⟩
        · intro _
          exact List.mem_cons_self _ _
      · rw [List.mem_cons]
        constructor
        · rintro (rfl | hmem)
          · exact absurd rfl hpe
          · obtain ⟨hnotin, hfind⟩ := (ih (i :: seen) p).mp hmem
            simp only [List.mem_cons, not_or] at hnotin
            refine ⟨hnotin.2, ?_⟩
            rw [List.find?_cons_of_neg _ (by simp; exact fun h => hnotin.1 h.symm)]
            exact hfind
        · rintro ⟨hnseen, hfind⟩
          by_cases hpi : i = p.1
          · rw [List.find?_cons_of_pos _ (by simp [hpi])] at hfind
            injection hfind with h
            exact absurd h.symm hpe
          · rw [List.find?_cons_of_neg _ (by simp [hpi])] at hfind
            right
            refine (ih (i :: seen) p).mpr ⟨?_, hfind⟩
            simp only [List.mem_cons, not_or]
            exact ⟨fun h => hpi h.symm, hnseen⟩

/-- foundIntents emits at most one entry per table row, keyed by that
row's category, so its categories form a sublist of the table's. -/
lemma filterMap_firstkw_fst_sublist (ql : String) :
    ∀ (tbl : List (String × List String)),
      List.Sublist ((tbl.filterMap (fun p => (p.2.find? (fun kw => strContains ql kw)).map
        (fun kw => (p.1, kw)))).map Prod.fst) (tbl.map Prod.fst) := by
  intro tbl
  induction tbl with
  | nil => simp
  | cons p rest ih =>
    cases hfind : p.2.find? (fun kw => strContains ql kw) with
    | none =>
      rw [List.filterMap_cons_none (by rw [hfind]; rfl), List.map_cons]
      exact ih.cons p.1
    | some kw =>
      rw [List.filterMap_cons_some (by rw [hfind]; rfl), List.map_cons, List.map_cons]
      exact ih.cons₂ p.1

lemma foundIntents_fst_nodup (q : String) :
    ((foundIntents q).map Prod.fst).Nodup := by
  have htbl : (INTENT_KEYWORDS.map Prod.fst).Nodup := by decide
  exact htbl.sublist (filterMap_firstkw_fst_sublist (pyLower q) INTENT_KEYWORDS)

/-- The detected categories are pairwise distinct, so the dedup pass of
decompose is the identity on them. -/
lemma dedup_foundIntents_eq_self :
    ∀ (l : List (String × String)) (seen : List String),
      (l.map Prod.fst).Nodup → (∀ i ∈ l.map Prod.fst, i ∉ seen) →
      dedupIntentsAux seen l = l := by
  intro l
  induction l with
  | nil => intro seen _ _; rfl
  | cons e rest ih =>
    intro seen hnd hdisj
    obtain ⟨i, kw⟩ := e
    simp only [List.map_cons, List.nodup_cons] at hnd
    have hiseen : i ∉ seen := hdisj i (by simp)
    rw [dedupIntentsAux, if_neg hiseen]
    congr 1
    apply ih (i :: seen) hnd.2
    intro j hj
    simp only [List.mem_cons, not_or]
    exact ⟨fun h => hnd.1 (h ▸ hj), hdisj j (by simp [hj])⟩

/-- C3 amended: decompose emits exactly one sub-query for each detected
intent category, in detection order (the dedup keeps first occurrences in
place, and the detected categories are already distinct), every detected
category keeps its own sub-query even when several categories share an
owning service, and each sub-query's service is the fixed lookup image of
its category. -/
theorem decompose_at_most_one_subquery_per_intent (q : String) :
    ((decompose q).sub_queries =
      (foundIntents q).map (fun p => SubQuery.mk p.1 p.2 (intent_to_agent p.1) q)) ∧
    ((decompose q).sub_queries.map (fun sq => sq.intent) =
      (foundIntents q).map Prod.fst) ∧
    (∀ i, (decompose q).sub_queries.countP
      (fun sq => decide (sq.intent = i)) ≤ 1) ∧
    (∀ p ∈ foundIntents q, ∃ sq ∈ (decompose q).sub_queries,
      sq.intent = p.1 ∧ sq.keyword = p.2 ∧ sq.agent = intent_to_agent p.1) ∧
    (∀ sq ∈ (decompose q).sub_queries, sq.agent = intent_to_agent sq.intent) ∧
    (∀ (l : List (String × String)), List.Sublist (dedupIntentsAux [] l) l) ∧
    (∀ (l : List (String × String)) (p : String × String),
      p ∈ dedupIntentsAux [] l ↔ l.find? (fun e => e.1 = p.1) = some p) := by
  have hid : dedupIntentsAux [] (foundIntents q) = foundIntents q :=
    dedup_foundIntents_eq_self (foundIntents q) [] (foundIntents_fst_nodup q)
      (by intro i _; simp)
  have hsubq : (decompose q).sub_queries =
      (foundIntents q).map (fun p => SubQuery.mk p.1 p.2 (intent_to_agent p.1) q) := by
    show (dedupIntentsAux [] (foundIntents q)).map
      (fun p => SubQuery.mk p.1 p.2 (intent_to_agent p.1) q) = _
    rw [hid]
  refine ⟨hsubq, ?_, ?_, ?_, ?_, ?_, ?_⟩
  · rw [hsubq, List.map_map]
    rfl
  · intro i
    have h2 : ((dedupIntentsAux [] (foundIntents q)).map Prod.fst).Nodup :=
      (dedupIntents_fst_nodup (foundIntents q) []).1
    have h3 := countP_le_one_of_nodup _ h2 i
    rw [List.countP_map] at h3
    show ((dedupIntentsAux [] (foundIntents q)).map
      (fun p => SubQuery.mk p.1 p.2 (intent_to_agent p.1) q)).countP _ ≤ 1
    rw [List.countP_map]
    exact h3
  · intro p hp
    refine ⟨SubQuery.mk p.1 p.2 (intent_to_agent p.1) q, ?_, rfl, rfl, rfl⟩
    rw [hsubq]
    exact List.mem_map_of_mem _ hp
  · intro sq hsq
    rw [hsubq, List.mem_map] at hsq
    obtain ⟨p, hp, rfl⟩ := hsq
    rfl
  · intro l
    exact dedupIntentsAux_sublist l []
  · intro l p
    rw [dedupIntentsAux_mem_iff l [] p]
    simp

/-! ## apps/orchestrator/context.py : ContextWindowManager

Only the fields and operations the claims exercise are carried; entity
references (add_entity, get_entity) live in a separate OrderedDict that
add_message never touches. -/

/-- The ConversationSummary dataclass. -/
structure ConversationSummary where
  user_intent : String
  entities_mentioned : List String
  agents_consulted : List String
  key_findings : List String
  timestamp : Nat
deriving DecidableEq, Repr

/-- One message dict as built by add_message: role, content, timestamp,
the two metadata lists read back by _create_summary, and the token
estimate. -/
structure Msg where
  role : String
  content : String
  timestamp : Nat
  entities_meta : List String
  agents_meta : List String
  token_estimate : Nat
deriving DecidableEq, Repr

def MAX_CONTEXT_TOKENS : Nat := 4000
def MAX_FULL_MESSAGES : Nat := 5
def MAX_ENTITIES : Nat := 20

structure ContextWindowManager where
  session_id : String
  messages : List Msg
  summaries : List ConversationSummary
  current_token_count : Nat
  created_at : Nat
  last_activity : Nat
deriving DecidableEq, Repr

def newManager (sid : String) (now : Nat) : ContextWindowManager :=
  ⟨sid, [], [], 0, now, now⟩

def pyTake100 (s : String) : String := String.mk (s.toList.take 100)

/-- ContextWindowManager._create_summary.  Python materializes sets whose
iteration order is unspecified; the dedup here keeps first occurrences,
and no claim depends on the order inside these summary fields.  The
agents variable collected over all messages is dead code in the source
(agents_consulted is built from the assistant messages only), and is
omitted. -/
def createSummary (msgs : List Msg) (now : Nat) : ConversationSummary :=
  let user_messages := (msgs.filter (fun m => m.role = "user")).map (fun m => m.content)
  let agent_messages := (msgs.filter (fun m => m.role = "assistant")).map
    (fun m => m.agents_meta)
  let entities := (msgs.map (fun m => m.entities_meta)).flatten
  { user_intent := match user_messages with | [] => "" | c :: _ => pyTake100 c
    entities_mentioned := entities.dedup.take 10
    agents_consulted := agent_messages.flatten.dedup
    key_findings := ["Conversation summarized for token optimization"]
    timestamp := now }

/-- ContextWindowManager._optimize_context (context.py lines 166-190);
the Python locals old_messages (messages with the last 5 cut off) and kept
(the last 5 messages) are inlined. -/
def optimizeContext (m : ContextWindowManager) (now : Nat) : ContextWindowManager :=
  if m.current_token_count ≤ MAX_CONTEXT_TOKENS then m
  else if MAX_FULL_MESSAGES < m.messages.length then
    { m with
      messages := m.messages.drop (m.messages.length - MAX_FULL_MESSAGES)
      summaries := m.summaries ++
        [createSummary (m.messages.take (m.messages.length - MAX_FULL_MESSAGES)) now]
      current_token_count := ((m.messages.drop
        (m.messages.length - MAX_FULL_MESSAGES)).map
          (fun mm => mm.token_estimate)).sum }
  else m

/-- The message dict built by add_message, with its token estimate
len(content) div 4. -/
def mkMsg (role content : String) (entities_meta agents_meta : List String)
    (now : Nat) : Msg :=
  ⟨role, content, now, entities_meta, agents_meta, content.length / 4⟩

/-- ContextWindowManager.add_message (context.py lines 65-85): append the
message, bump the running count, then run the optimization pass. -/
def ContextWindowManager.add_message (m : ContextWindowManager)
    (role content : String) (entities_meta agents_meta : List String)
    (now : Nat) : ContextWindowManager :=
  optimizeContext
    { m with
      messages := m.messages ++ [mkMsg role content entities_meta agents_meta now]
      current_token_count := m.current_token_count + content.length / 4
      last_activity := now } now

/-! ## apps/orchestrator/graph.py and nodes.py : routing and errors -/

/-- The AgentState enumeration of state.py. -/
inductive AgentState
  | listening | routing | executing | answering | error | complete
deriving DecidableEq, Repr

/-- One state_history entry: src is none for the session_start entry that
carries no from key; err mirrors the error key added by
transition_to_error (the Python None is modelled as none; no claim
inspects this field). -/
structure HistoryEntry where
  src : Option AgentState
  dst : AgentState
  trigger : String
  err : Option String
deriving DecidableEq, Repr

/-- One agent result dict as produced by execute_batch_parallel: rows are
opaque string maps; the wall-clock execution_time_ms field lies outside
the embedding. -/
structure AgentResult where
  success : Bool
  error : Option String := none
  data : List (List (String × String)) := []
deriving DecidableEq, Repr

/-- The slice of the OrchestratorState TypedDict that route_from_execution
and handle_error read or write; the other keys flow through unchanged. -/
structure OrchestratorState where
  current_state : AgentState
  state_history : List HistoryEntry
  agent_results : List (String × AgentResult)
  error : Option String
  final_response : String
deriving DecidableEq, Repr

/-- Python truthiness of state.get("error"): None and the empty string are
falsy. -/
def pyTruthyStr : Option String → Bool
  | none => false
  | some e => decide (e ≠ "")

/-- Python str() of an optional string, as interpolated into the apology
message: str(None) is the text None. -/
def pyStrOfOpt : Option String → String
  | none => "None"
  | some e => e

/-- transition_to_error of state.py (the previous state is always present
in the flow). -/
def transition_to_error (s : OrchestratorState) (error : Option String) :
    OrchestratorState :=
  { s with current_state := AgentState.error
           error := error
           state_history := s.state_history ++
             [⟨some s.current_state, AgentState.error, "error_occurred", error⟩] }

/-- transition_to_complete of state.py. -/
def transition_to_complete (s : OrchestratorState) : OrchestratorState :=
  { s with current_state := AgentState.complete
           state_history := s.state_history ++
             [⟨some s.current_state, AgentState.complete, "response_ready", none⟩] }

/-- route_from_execution of graph.py (lines 63-84). -/
def route_from_execution (s : OrchestratorState) : String :=
  if pyTruthyStr s.error then "handle_error"
  else if s.agent_results.isEmpty then "handle_error"
  else if s.agent_results.any (fun r => r.2.success) then "synthesize"
  else "handle_error"

/-- handle_error of nodes.py (lines 923-935).  state.get("error", default)
returns the stored value; the error key is always initialized (to None) by
create_initial_state, so the default never fires in the graph flow. -/
def handle_error (s : OrchestratorState) : OrchestratorState :=
  let error := s.error
  let s1 := transition_to_error s error
  let s2 := { s1 with final_response :=
    ("I apologize, but I encountered an issue while processing your request. Error: "
      ++ pyStrOfOpt error ++ ". Please try again or contact our support team.") }
  transition_to_complete s2

/-- execute_batch_parallel of nodes.py (lines 706-742).  The behavior of
get_agent_instance(name).execute(query, context, entities) may raise and
is abstracted as a function from the agent name to Except; query, context
and entity list are fixed for the batch and absorbed into that function.
The Python results dict is keyed by agent name with completion order as
insertion order; the embedding keeps batch order and is read through
resultFor, the only access pattern the claims use. -/
def execute_batch_parallel (agentExec : String → Except String AgentResult)
    (agents : List String) : List (String × AgentResult) :=
  agents.map (fun a => (a,
    match agentExec a with
    | Except.ok r => r
    | Except.error msg => { success := false, error := some msg, data := [] }))

def resultFor (results : List (String × AgentResult)) (a : String) :
    Option AgentResult :=
  (results.find? (fun e => e.1 = a)).map (fun e => e.2)

/-! ## Claim theorems for the context window manager -/

lemma context_single_big_message (content : String) (hlen : content.length = 16004) :
    MAX_CONTEXT_TOKENS <
      ((newManager "s" 0).add_message "user" content [] [] 0).current_token_count ∧
    ((newManager "s" 0).add_message "user" content [] [] 0).summaries.length = 0 ∧
    ((newManager "s" 0).add_message "user" content [] [] 0).messages.length = 1 := by
  have hm : (newManager "s" 0).add_message "user" content [] [] 0 =
      { session_id := "s", messages := [mkMsg "user" content [] [] 0],
        summaries := [], current_token_count := 4001,
        created_at := 0, last_activity := 0 } := by
    unfold ContextWindowManager.add_message newManager optimizeContext
    simp only [List.nil_append, Nat.zero_add, hlen]
    norm_num [MAX_CONTEXT_TOKENS, MAX_FULL_MESSAGES]
  rw [hm]
  exact ⟨by simp [MAX_CONTEXT_TOKENS], rfl, rfl⟩

/-- C8 counterexample: a single 16004-character message leaves the running
estimate at 4001 tokens, above the 4000 budget, but the message list (one
entry) is not longer than the keep-last-5 window, so no summary is created
and the list does not shrink to the window size. -/
theorem context_compaction_counterexample :
    MAX_CONTEXT_TOKENS <
      ((newManager "s" 0).add_message "user"
        (String.mk (List.replicate 16004 'a')) [] [] 0).current_token_count ∧
    ((newManager "s" 0).add_message "user"
      (String.mk (List.replicate 16004 'a')) [] [] 0).summaries.length = 0 ∧
    ((newManager "s" 0).add_message "user"
      (String.mk (List.replicate 16004 'a')) [] [] 0).messages.length = 1 :=
  context_single_big_message (String.mk (List.replicate 16004 'a'))
    (by show (List.replicate 16004 'a').length = 16004; rw [List.length_replicate])

/-- C8 amended: when an add_message call leaves the running estimate above
the budget and the message list is longer than the keep-last-5 window, the
messages beyond the window are compacted into exactly one summary appended
to the summaries list, the message list shrinks to exactly the window, and
the count is recomputed as the sum of the estimates of the kept messages;
with at most 5 messages the over-budget state is left as is (the
counterexample). -/
theorem context_compaction_amended (m : ContextWindowManager) (role content : String)
    (em am : List String) (now : Nat)
    (hover : MAX_CONTEXT_TOKENS < m.current_token_count + content.length / 4)
    (hlen : MAX_FULL_MESSAGES < m.messages.length + 1) :
    (m.add_message role content em am now).summaries =
      m.summaries ++ [createSummary ((m.messages ++ [mkMsg role content em am now]).take
        (m.messages.length + 1 - MAX_FULL_MESSAGES)) now] ∧
    (m.add_message role content em am now).messages =
      (m.messages ++ [mkMsg role content em am now]).drop
        (m.messages.length + 1 - MAX_FULL_MESSAGES) ∧
    (m.add_message role content em am now).messages.length = MAX_FULL_MESSAGES ∧
    (m.add_message role content em am now).current_token_count =
      ((m.add_message role content em am now).messages.map
        (fun mm => mm.token_estimate)).sum := by
  have hlapp : (m.messages ++ [mkMsg role content em am now]).length =
      m.messages.length + 1 := by
    rw [List.length_append, List.length_singleton]
  have hopt : m.add_message role content em am now =
      { m with
        messages := (m.messages ++ [mkMsg role content em am now]).drop
          (m.messages.length + 1 - MAX_FULL_MESSAGES)
        summaries := m.summaries ++
          [createSummary ((m.messages ++ [mkMsg role content em am now]).take
            (m.messages.length + 1 - MAX_FULL_MESSAGES)) now]
        current_token_count := (((m.messages ++ [mkMsg role content em am now]).drop
          (m.messages.length + 1 - MAX_FULL_MESSAGES)).map
            (fun mm => mm.token_estimate)).sum
        last_activity := now } := by
    show optimizeContext
      { m with
        messages := m.messages ++ [mkMsg role content em am now]
        current_token_count := m.current_token_count + content.length / 4
        last_activity := now } now = _
    rw [optimizeContext]
    rw [if_neg (by
      show ¬ (m.current_token_count + content.length / 4 ≤ MAX_CONTEXT_TOKENS)
      omega)]
    rw [if_pos (by
      show MAX_FULL_MESSAGES < (m.messages ++ [mkMsg role content em am now]).length
      rw [hlapp]
      omega)]
    rw [hlapp]
  refine ⟨by rw [hopt], by rw [hopt], ?_, by rw [hopt]⟩
  rw [hopt]
  show ((m.messages ++ [mkMsg role content em am now]).drop
    (m.messages.length + 1 - MAX_FULL_MESSAGES)).length = MAX_FULL_MESSAGES
  rw [List.length_drop, hlapp]
  have h5 : MAX_FULL_MESSAGES = 5 := rfl
  omega

/-- Closed instance of C8 amended: five kept messages, a sixth small one
pushes the count just past the budget and triggers a compaction. -/
theorem context_compaction_amended_witness :
    ((⟨"s", List.replicate 5 (mkMsg "user" "mmmm" [] [] 0), [], 4000, 0, 0⟩ :
        ContextWindowManager).add_message "user" "abcd" [] [] 9).summaries =
      [] ++ [createSummary ((List.replicate 5 (mkMsg "user" "mmmm" [] [] 0) ++
        [mkMsg "user" "abcd" [] [] 9]).take
          ((List.replicate 5 (mkMsg "user" "mmmm" [] [] 0)).length + 1 -
            MAX_FULL_MESSAGES)) 9] ∧
    ((⟨"s", List.replicate 5 (mkMsg "user" "mmmm" [] [] 0), [], 4000, 0, 0⟩ :
        ContextWindowManager).add_message "user" "abcd" [] [] 9).messages =
      (List.replicate 5 (mkMsg "user" "mmmm" [] [] 0) ++
        [mkMsg "user" "abcd" [] [] 9]).drop
          ((List.replicate 5 (mkMsg "user" "mmmm" [] [] 0)).length + 1 -
            MAX_FULL_MESSAGES) ∧
    ((⟨"s", List.replicate 5 (mkMsg "user" "mmmm" [] [] 0), [], 4000, 0, 0⟩ :
        ContextWindowManager).add_message "user" "abcd" [] [] 9).messages.length =
      MAX_FULL_MESSAGES ∧
    ((⟨"s", List.replicate 5 (mkMsg "user" "mmmm" [] [] 0), [], 4000, 0, 0⟩ :
        ContextWindowManager).add_message "user" "abcd" [] [] 9).current_token_count =
      (((⟨"s", List.replicate 5 (mkMsg "user" "mmmm" [] [] 0), [], 4000, 0, 0⟩ :
        ContextWindowManager).add_message "user" "abcd" [] [] 9).messages.map
          (fun mm => mm.token_estimate)).sum :=
  context_compaction_amended
    ⟨"s", List.replicate 5 (mkMsg "user" "mmmm" [] [] 0), [], 4000, 0, 0⟩
    "user" "abcd" [] [] 9 (by decide) (by decide)



/-! ## Claim theorems for routing and error handling -/

/-- C6 counterexample: a total-failure state with no previously recorded
error routes to the error handler, but the error field of the handled
state is still None, not a non-empty error string. -/
theorem total_failure_error_field_counterexample :
    route_from_execution
      { current_state := AgentState.executing,
        state_history := [⟨none, AgentState.listening, "session_start", none⟩],
        agent_results := [("shopcore", ⟨false, some "db down", []⟩),
                          ("shipstream", ⟨false, some "db down", []⟩)],
        error := none,
        final_response := "" } = "handle_error" ∧
    ¬ ∃ e, (handle_error
      { current_state := AgentState.executing,
        state_history := [⟨none, AgentState.listening, "session_start", none⟩],
        agent_results := [("shopcore", ⟨false, some "db down", []⟩),
                          ("shipstream", ⟨false, some "db down", []⟩)],
        error := none,
        final_response := "" }).error = some e ∧ e ≠ "" := by
  refine ⟨rfl, ?_⟩
  rintro ⟨e, he, _⟩
  simp [handle_error, transition_to_error, transition_to_complete] at he

/-- C6 amended: when every agent result has success false, the execution
router returns handle_error; the handler drives the machine to ERROR and
then COMPLETE, appending both transitions to the history; the resulting
response text is a non-empty apology, while the error field keeps its
prior value, which is None when total failure was the only fault. -/
theorem total_failure_reaches_error_then_complete (s : OrchestratorState)
    (hfail : ∀ r ∈ s.agent_results, r.2.success = false) :
    route_from_execution s = "handle_error" ∧
    (handle_error s).current_state = AgentState.complete ∧
    (handle_error s).state_history = s.state_history ++
      [⟨some s.current_state, AgentState.error, "error_occurred", s.error⟩,
       ⟨some AgentState.error, AgentState.complete, "response_ready", none⟩] ∧
    (handle_error s).final_response ≠ "" ∧
    (handle_error s).error = s.error := by
  refine ⟨?_, rfl, ?_, ?_, rfl⟩
  · unfold route_from_execution
    by_cases h1 : pyTruthyStr s.error
    · rw [if_pos h1]
    · rw [if_neg h1]
      by_cases h2 : s.agent_results.isEmpty
      · rw [if_pos h2]
      · rw [if_neg h2]
        have hany : (s.agent_results.any (fun r => r.2.success)) = false := by
          rw [List.any_eq_false]
          intro r hr
          simp [hfail r hr]
        rw [hany, if_neg (by simp)]
  · simp [handle_error, transition_to_error, transition_to_complete]
  · show ("I apologize, but I encountered an issue while processing your request. Error: "
      ++ pyStrOfOpt s.error ++ ". Please try again or contact our support team.") ≠ ""
    intro h
    have hcong := congrArg String.length h
    rw [String.length_append, String.length_append] at hcong
    have hpos : 0 <
        ("I apologize, but I encountered an issue while processing your request. Error: " :
          String).length := by decide
    simp at hcong
    omega

/-- Closed instance of C6 amended on a two-agent total failure. -/
theorem total_failure_reaches_error_then_complete_witness :
    route_from_execution
      { current_state := AgentState.executing,
        state_history := [⟨none, AgentState.listening, "session_start", none⟩],
        agent_results := [("shopcore", ⟨false, some "timeout", []⟩),
                          ("payguard", ⟨false, some "timeout", []⟩)],
        error := none,
        final_response := "" } = "handle_error" ∧
    (handle_error
      { current_state := AgentState.executing,
        state_history := [⟨none, AgentState.listening, "session_start", none⟩],
        agent_results := [("shopcore", ⟨false, some "timeout", []⟩),
                          ("payguard", ⟨false, some "timeout", []⟩)],
        error := none,
        final_response := "" }).current_state = AgentState.complete ∧
    (handle_error
      { current_state := AgentState.executing,
        state_history := [⟨none, AgentState.listening, "session_start", none⟩],
        agent_results := [("shopcore", ⟨false, some "timeout", []⟩),
                          ("payguard", ⟨false, some "timeout", []⟩)],
        error := none,
        final_response := "" }).state_history =
      [⟨none, AgentState.listening, "session_start", none⟩] ++
      [⟨some AgentState.executing, AgentState.error, "error_occurred", none⟩,
       ⟨some AgentState.error, AgentState.complete, "response_ready", none⟩] ∧
    (handle_error
      { current_state := AgentState.executing,
        state_history := [⟨none, AgentState.listening, "session_start", none⟩],
        agent_results := [("shopcore", ⟨false, some "timeout", []⟩),
                          ("payguard", ⟨false, some "timeout", []⟩)],
        error := none,
        final_response := "" }).final_response ≠ "" ∧
    (handle_error
      { current_state := AgentState.executing,
        state_history := [⟨none, AgentState.listening, "session_start", none⟩],
        agent_results := [("shopcore", ⟨false, some "timeout", []⟩),
                          ("payguard", ⟨false, some "timeout", []⟩)],
        error := none,
        final_response := "" }).error = none :=
  total_failure_reaches_error_then_complete
    { current_state := AgentState.executing,
      state_history := [⟨none, AgentState.listening, "session_start", none⟩],
      agent_results := [("shopcore", ⟨false, some "timeout", []⟩),
                        ("payguard", ⟨false, some "timeout", []⟩)],
      error := none,
      final_response := "" } (by decide)

lemma resultFor_map (f : String → AgentResult) :
    ∀ (agents : List String) (b : String),
      resultFor (agents.map (fun a => (a, f a))) b =
        if b ∈ agents then some (f b) else none := by
  intro agents
  induction agents with
  | nil => intro b; simp [resultFor]
  | cons c rest ih =>
    intro b
    by_cases hbc : c = b
    · subst hbc
      unfold resultFor
      rw [List.map_cons, List.find?_cons_of_pos _ (by simp)]
      simp
    · unfold resultFor at ih ⊢
      rw [List.map_cons, List.find?_cons_of_neg _ (by simp [hbc])]
      rw [ih]
      have : (b ∈ c :: rest) ↔ b ∈ rest := by
        simp [List.mem_cons]
        intro hb
        exact absurd hb.symm hbc
      by_cases hb : b ∈ rest
      · rw [if_pos hb, if_pos (this.mpr hb)]
      · rw [if_neg hb, if_neg (fun hc => hb (this.mp hc))]

/-- C7: execute_batch_parallel returns an entry for every agent of the
batch, converts an execution that raises into a failed result with the
message and empty data instead of propagating the exception, and the
results of the other agents are the same as under any execution behavior
that differs only at the faulting agent. -/
theorem batch_isolates_agent_exceptions
    (agentExec agentExec' : String → Except String AgentResult)
    (agents : List String) (a : String) (msg : String)
    (hraise : agentExec a = Except.error msg)
    (hagree : ∀ b, b ≠ a → agentExec' b = agentExec b) :
    (∀ b ∈ agents, ∃ r, resultFor (execute_batch_parallel agentExec agents) b = some r) ∧
    (a ∈ agents → resultFor (execute_batch_parallel agentExec agents) a =
      some { success := false, error := some msg, data := [] }) ∧
    (∀ b ∈ agents, b ≠ a →
      resultFor (execute_batch_parallel agentExec' agents) b =
        resultFor (execute_batch_parallel agentExec agents) b) := by
  have hrun : ∀ (g : String → Except String AgentResult) (b : String),
      resultFor (execute_batch_parallel g agents) b =
        if b ∈ agents then some (match g b with
          | Except.ok r => r
          | Except.error m => { success := false, error := some m, data := [] })
        else none := by
    intro g b
    exact resultFor_map (fun x => match g x with
      | Except.ok r => r
      | Except.error m => { success := false, error := some m, data := [] }) agents b
  refine ⟨?_, ?_, ?_⟩
  · intro b hb
    rw [hrun agentExec b, if_pos hb]
    exact ⟨_, rfl⟩
  · intro ha
    rw [hrun agentExec a, if_pos ha, hraise]
  · intro b hb hba
    rw [hrun agentExec' b, hrun agentExec b, if_pos hb, if_pos hb, hagree b hba]

/-- Closed instance of C7: shipstream raises, shopcore is unaffected. -/
theorem batch_isolates_agent_exceptions_witness :
    (∀ b ∈ ["shopcore", "shipstream"], ∃ r,
      resultFor (execute_batch_parallel
        (fun n => if n = "shipstream" then Except.error "boom"
                  else Except.ok ⟨true, none, []⟩)
        ["shopcore", "shipstream"]) b = some r) ∧
    ("shipstream" ∈ ["shopcore", "shipstream"] →
      resultFor (execute_batch_parallel
        (fun n => if n = "shipstream" then Except.error "boom"
                  else Except.ok ⟨true, none, []⟩)
        ["shopcore", "shipstream"]) "shipstream" =
        some { success := false, error := some "boom", data := [] }) ∧
    (∀ b ∈ ["shopcore", "shipstream"], b ≠ "shipstream" →
      resultFor (execute_batch_parallel
        (fun _ => Except.ok (⟨true, none, []⟩ : AgentResult))
        ["shopcore", "shipstream"]) b =
        resultFor (execute_batch_parallel
          (fun n => if n = "shipstream" then Except.error "boom"
                    else Except.ok ⟨true, none, []⟩)
          ["shopcore", "shipstream"]) b) :=
  batch_isolates_agent_exceptions
    (fun n => if n = "shipstream" then Except.error "boom"
              else Except.ok ⟨true, none, []⟩)
    (fun _ => Except.ok (⟨true, none, []⟩ : AgentResult))
    ["shopcore", "shipstream"] "shipstream" "boom" (by simp)
    (fun b hb => by simp [hb])

end Orchestrator
